import Mathlib

/-!
Verification of the bruno-mcp-tools core: tool-name sanitization (naming.ts),
discovery (discover.ts), runner execution and report handling (runner.ts),
and the MCP list-tools view (mcp.ts), shallowly embedded in Lean.
Paths are modelled as lists of segments, file trees as an inductive type,
and the effectful runner as a pure function over an explicit world record
that also returns the trace of performed side effects.
-/

set_option maxHeartbeats 1000000
set_option maxRecDepth 8000
set_option exponentiation.threshold 1100

namespace BrunoMcp

/-! ## Character helpers -/

/-- ASCII lower-casing of a character.  Models String.prototype.toLowerCase for
the inputs that matter here: characters A-Z map to a-z; any non-ASCII upper-case
letter lower-cases to a non-ASCII letter, which the subsequent sanitization
replaces with an underscore either way. -/
def jsLower (c : Char) : Char :=
  if 65 ≤ c.toNat ∧ c.toNat ≤ 90 then Char.ofNat (c.toNat + 32) else c

/-- ASCII upper-casing of a character, models String.prototype.toUpperCase
analogously to jsLower. -/
def jsUpper (c : Char) : Char :=
  if 97 ≤ c.toNat ∧ c.toNat ≤ 122 then Char.ofNat (c.toNat - 32) else c

/-- The character class of the regex [a-z0-9], i.e. the characters the
sanitizer keeps. -/
def isAlnumLower (c : Char) : Bool :=
  (97 ≤ c.toNat && c.toNat ≤ 122) || (48 ≤ c.toNat && c.toNat ≤ 57)

/-- The character class of the regex [A-Z0-9] used by sanitizeEnvVarName. -/
def isAlnumUpper (c : Char) : Bool :=
  (65 ≤ c.toNat && c.toNat ≤ 90) || (48 ≤ c.toNat && c.toNat ≤ 57)

/-- Test for the underscore character. -/
def isUnd (c : Char) : Bool := c == '_'

/-! ## sanitizeSegment (naming.ts lines 19-25)

The source applies four chained operations to the input string:
toLowerCase, replace(/[^a-z0-9]+/g, underscore), replace(/^_+|_+$/g, empty),
replace(/_+/g, underscore).  Each replace is modelled by a structurally
recursive function over the character list. -/

/-- replace(/[^a-z0-9]+/g, underscore) for a given keep-class: every maximal
run of characters outside the class becomes a single underscore.  The Boolean
argument records whether the previous character was part of such a run. -/
def replaceNonAlnumRuns (keep : Char → Bool) : Bool → List Char → List Char
  | _, [] => []
  | inRun, c :: cs =>
    if keep c then c :: replaceNonAlnumRuns keep false cs
    else if inRun then replaceNonAlnumRuns keep true cs
    else '_' :: replaceNonAlnumRuns keep true cs

/-- replace(/^_+|_+$/g, empty): strip the leading and the trailing run of
underscores. -/
def trimUnderscores (l : List Char) : List Char :=
  ((l.dropWhile isUnd).reverse.dropWhile isUnd).reverse

/-- replace(/_+/g, underscore): collapse every run of underscores to a single
underscore.  The Boolean argument records whether the previous kept character
was an underscore. -/
def collapseUnderscores : Bool → List Char → List Char
  | _, [] => []
  | prevU, c :: cs =>
    if isUnd c then
      if prevU then collapseUnderscores true cs
      else '_' :: collapseUnderscores true cs
    else c :: collapseUnderscores false cs

/-- Core of sanitizeSegment over character lists. -/
def sanitizeSegmentChars (l : List Char) : List Char :=
  collapseUnderscores false
    (trimUnderscores (replaceNonAlnumRuns isAlnumLower false (l.map jsLower)))

/-- sanitizeSegment from naming.ts: lower-case, replace non-alphanumeric runs
with an underscore, strip leading and trailing underscores, collapse repeated
underscores.  A total function: it never fails. -/
def sanitizeSegment (s : String) : String :=
  ⟨sanitizeSegmentChars s.data⟩

/-- sanitizeEnvVarName from runner.ts: upper-case, replace runs outside
[A-Z0-9] with an underscore, strip leading and trailing underscores, collapse
repeated underscores. -/
def sanitizeEnvVarName (s : String) : String :=
  ⟨collapseUnderscores false
    (trimUnderscores (replaceNonAlnumRuns isAlnumUpper false (s.data.map jsUpper)))⟩

/-- No two adjacent underscores occur in the list. -/
def noDoubleUnd : List Char → Bool
  | a :: b :: t => (!(isUnd a && isUnd b)) && noDoubleUnd (b :: t)
  | _ => true

/-- The shape the specification promises for sanitizer output: only characters
from [a-z0-9_], no leading underscore, no trailing underscore, and no repeated
underscores. -/
def saneSegmentChars (l : List Char) : Bool :=
  l.all (fun c => isAlnumLower c || isUnd c) &&
  (match l.head? with | some c => !(isUnd c) | none => true) &&
  (match l.getLast? with | some c => !(isUnd c) | none => true) &&
  noDoubleUnd l

example : sanitizeSegment "Billing API" = "billing_api" := by decide
example : sanitizeSegment "__a--b__" = "a_b" := by decide
example : sanitizeSegment "---" = "" := by decide

/-! ### Lemmas about the sanitization pipeline -/

theorem mem_replaceNonAlnumRuns (keep : Char → Bool) :
    ∀ (l : List Char) (b : Bool) (c : Char),
      c ∈ replaceNonAlnumRuns keep b l → keep c = true ∨ c = '_' := by
  intro l
  induction l with
  | nil => intro b c h; simp [replaceNonAlnumRuns] at h
  | cons a as ih =>
    intro b c h
    unfold replaceNonAlnumRuns at h
    by_cases hk : keep a
    · rw [if_pos hk] at h
      rcases List.mem_cons.mp h with h1 | h1
      · exact Or.inl (h1 ▸ hk)
      · exact ih false c h1
    · rw [if_neg hk] at h
      cases b with
      | true =>
        simp only [if_true] at h
        exact ih true c h
      | false =>
        simp only [Bool.false_eq_true, if_false] at h
        rcases List.mem_cons.mp h with h1 | h1
        · exact Or.inr h1
        · exact ih true c h1

theorem head?_dropWhile_not (p : Char → Bool) :
    ∀ (l : List Char) (a : Char), (l.dropWhile p).head? = some a → p a = false := by
  intro l
  induction l with
  | nil => intro a h; simp [List.dropWhile] at h
  | cons x xs ih =>
    intro a h
    rw [List.dropWhile_cons] at h
    by_cases hp : p x
    · rw [if_pos hp] at h; exact ih a h
    · rw [if_neg hp] at h
      simp only [List.head?_cons, Option.some.injEq] at h
      rw [← h]
      simpa using hp

theorem isUnd_eq (c : Char) (h : isUnd c = true) : c = '_' := by
  unfold isUnd at h
  exact eq_of_beq h

theorem mem_dropWhile (p : Char → Bool) :
    ∀ (l : List Char) (c : Char), c ∈ l.dropWhile p → c ∈ l := by
  intro l
  induction l with
  | nil => intro c h; simp [List.dropWhile] at h
  | cons x xs ih =>
    intro c h
    rw [List.dropWhile_cons] at h
    by_cases hp : p x
    · rw [if_pos hp] at h; exact List.mem_cons_of_mem x (ih c h)
    · rwa [if_neg hp] at h

theorem getLast?_cons_of_ne (x : Char) (xs : List Char) (h : xs ≠ []) :
    (x :: xs).getLast? = xs.getLast? := by
  cases xs with
  | nil => exact absurd rfl h
  | cons y ys => exact List.getLast?_cons_cons ..

theorem getLast?_dropWhile (p : Char → Bool) :
    ∀ (l : List Char), l.dropWhile p ≠ [] → (l.dropWhile p).getLast? = l.getLast? := by
  intro l
  induction l with
  | nil => intro h; simp [List.dropWhile] at h
  | cons x xs ih =>
    intro h
    rw [List.dropWhile_cons] at h ⊢
    by_cases hp : p x
    · rw [if_pos hp] at h ⊢
      have hxs : xs ≠ [] := by
        intro hnil
        rw [hnil] at h
        simp [List.dropWhile] at h
      rw [ih h, getLast?_cons_of_ne x xs hxs]
    · rw [if_neg hp]

theorem mem_trimUnderscores (l : List Char) (c : Char) (h : c ∈ trimUnderscores l) :
    c ∈ l := by
  unfold trimUnderscores at h
  rw [List.mem_reverse] at h
  have h1 := mem_dropWhile isUnd _ _ h
  rw [List.mem_reverse] at h1
  exact mem_dropWhile isUnd _ _ h1

theorem head?_trimUnderscores (l : List Char) (a : Char)
    (h : (trimUnderscores l).head? = some a) : isUnd a = false := by
  unfold trimUnderscores at h
  rw [List.head?_reverse] at h
  -- now h is about the getLast? of dropWhile isUnd over the reversed first stage
  have hne : (l.dropWhile isUnd).reverse.dropWhile isUnd ≠ [] := by
    intro hnil; rw [hnil] at h; simp at h
  rw [getLast?_dropWhile isUnd _ hne] at h
  rw [List.getLast?_reverse] at h
  exact head?_dropWhile_not isUnd l a h

theorem getLast?_trimUnderscores (l : List Char) (a : Char)
    (h : (trimUnderscores l).getLast? = some a) : isUnd a = false := by
  unfold trimUnderscores at h
  rw [List.getLast?_reverse] at h
  exact head?_dropWhile_not isUnd _ a h

theorem mem_collapseUnderscores :
    ∀ (l : List Char) (b : Bool) (c : Char), c ∈ collapseUnderscores b l → c ∈ l := by
  intro l
  induction l with
  | nil => intro b c h; simp [collapseUnderscores] at h
  | cons x xs ih =>
    intro b c h
    unfold collapseUnderscores at h
    by_cases hx : isUnd x
    · rw [if_pos hx] at h
      cases b with
      | true =>
        simp only [if_true] at h
        exact List.mem_cons_of_mem x (ih true c h)
      | false =>
        simp only [Bool.false_eq_true, if_false] at h
        rcases List.mem_cons.mp h with h1 | h1
        · rw [h1, ← isUnd_eq x hx]
          exact List.mem_cons_self x xs
        · exact List.mem_cons_of_mem x (ih true c h1)
    · rw [if_neg hx] at h
      rcases List.mem_cons.mp h with h1 | h1
      · rw [h1]; exact List.mem_cons_self x xs
      · exact List.mem_cons_of_mem x (ih false c h1)

theorem head?_collapseUnderscores_true :
    ∀ (l : List Char) (a : Char), (collapseUnderscores true l).head? = some a →
      isUnd a = false := by
  intro l
  induction l with
  | nil => intro a h; simp [collapseUnderscores] at h
  | cons x xs ih =>
    intro a h
    unfold collapseUnderscores at h
    by_cases hx : isUnd x
    · rw [if_pos hx, if_pos rfl] at h
      exact ih a h
    · rw [if_neg hx] at h
      simp only [List.head?_cons, Option.some.injEq] at h
      rw [← h]
      simpa using hx

theorem head?_collapseUnderscores_false (l : List Char) (a : Char)
    (hh : l.head? = some a) (ha : isUnd a = false) :
    (collapseUnderscores false l).head? = some a := by
  cases l with
  | nil => simp at hh
  | cons x xs =>
    simp only [List.head?_cons, Option.some.injEq] at hh
    subst hh
    unfold collapseUnderscores
    rw [if_neg (by simp [ha])]
    simp

theorem collapseUnderscores_eq_nil_all :
    ∀ (l : List Char), collapseUnderscores true l = [] → ∀ c ∈ l, c = '_' := by
  intro l
  induction l with
  | nil => intro _ c h; simp at h
  | cons x xs ih =>
    intro h c hc
    unfold collapseUnderscores at h
    by_cases hx : isUnd x
    · rw [if_pos hx, if_pos rfl] at h
      rcases List.mem_cons.mp hc with h1 | h1
      · rw [h1]
        exact isUnd_eq x hx
      · exact ih h c h1
    · rw [if_neg hx] at h
      simp at h

theorem getLast?_collapseUnderscores_und :
    ∀ (l : List Char) (b : Bool), (collapseUnderscores b l).getLast? = some '_' →
      l.getLast? = some '_' := by
  intro l
  induction l with
  | nil => intro b h; simp [collapseUnderscores] at h
  | cons x xs ih =>
    intro b h
    unfold collapseUnderscores at h
    by_cases hx : isUnd x
    · have hxeq : x = '_' := isUnd_eq x hx
      rw [if_pos hx] at h
      cases b with
      | true =>
        simp only [if_true] at h
        have hxs : xs ≠ [] := by
          intro hnil
          rw [hnil] at h
          simp [collapseUnderscores] at h
        rw [getLast?_cons_of_ne x xs hxs]
        exact ih true h
      | false =>
        simp only [Bool.false_eq_true, if_false] at h
        by_cases hnil : collapseUnderscores true xs = []
        · -- the tail collapses to nothing: every character of xs is an underscore
          have hall := collapseUnderscores_eq_nil_all xs hnil
          cases hxs : xs with
          | nil => simp [hxeq]
          | cons y ys =>
            rw [hxs] at hall
            rw [List.getLast?_cons_cons]
            have hne : (y :: ys) ≠ ([] : List Char) := by simp
            rw [List.getLast?_eq_getLast (y :: ys) hne]
            exact congrArg some (hall _ (List.getLast_mem hne))
        · have hxs : xs ≠ [] := by
            intro h0; rw [h0] at hnil; exact hnil rfl
          rw [getLast?_cons_of_ne x xs hxs]
          apply ih true
          rwa [getLast?_cons_of_ne '_' _ hnil] at h
    · rw [if_neg hx] at h
      by_cases hnil : collapseUnderscores false xs = []
      · rw [hnil] at h
        have hx2 : x = '_' := by simpa using h
        rw [hx2] at hx
        simp [isUnd] at hx
      · have hxs : xs ≠ [] := by
          intro h0; rw [h0] at hnil; exact hnil rfl
        rw [getLast?_cons_of_ne x xs hxs]
        apply ih false
        rwa [getLast?_cons_of_ne x _ hnil] at h

theorem noDoubleUnd_cons (c : Char) (r : List Char) :
    noDoubleUnd (c :: r) =
      ((match r.head? with
        | some d => !(isUnd c && isUnd d)
        | none => true) && noDoubleUnd r) := by
  cases r with
  | nil => simp [noDoubleUnd]
  | cons d t => simp [noDoubleUnd]

theorem noDoubleUnd_collapseUnderscores :
    ∀ (l : List Char) (b : Bool), noDoubleUnd (collapseUnderscores b l) = true := by
  intro l
  induction l with
  | nil => intro b; simp [collapseUnderscores, noDoubleUnd]
  | cons x xs ih =>
    intro b
    unfold collapseUnderscores
    by_cases hx : isUnd x
    · rw [if_pos hx]
      cases b with
      | true => simp only [if_true]; exact ih true
      | false =>
        simp only [Bool.false_eq_true, if_false]
        rw [noDoubleUnd_cons]
        cases hhd : (collapseUnderscores true xs).head? with
        | none => simpa using ih true
        | some d =>
          have hd := head?_collapseUnderscores_true xs d hhd
          simp only [hd, Bool.and_false, Bool.not_false, Bool.true_and]
          exact ih true
    · rw [if_neg hx]
      rw [noDoubleUnd_cons]
      cases hhd : (collapseUnderscores false xs).head? with
      | none => simpa using ih false
      | some d =>
        simp only [hx, Bool.false_and, Bool.not_false, Bool.true_and]
        exact ih false

theorem jsLower_fix (c : Char) (h : (isAlnumLower c || isUnd c) = true) : jsLower c = c := by
  simp only [isAlnumLower, isUnd, Bool.or_eq_true, Bool.and_eq_true, decide_eq_true_eq,
    beq_iff_eq] at h
  unfold jsLower
  rcases h with (h1 | h1) | h1
  · rw [if_neg (by omega)]
  · rw [if_neg (by omega)]
  · rw [if_neg (by subst h1; decide)]

theorem map_jsLower_fix (l : List Char)
    (h : l.all (fun c => isAlnumLower c || isUnd c) = true) : l.map jsLower = l := by
  induction l with
  | nil => rfl
  | cons x xs ih =>
    simp only [List.all_cons, Bool.and_eq_true] at h
    simp [jsLower_fix x h.1, ih h.2]

theorem replaceNonAlnumRuns_fix :
    ∀ (l : List Char), l.all (fun c => isAlnumLower c || isUnd c) = true →
      noDoubleUnd l = true →
      replaceNonAlnumRuns isAlnumLower false l = l ∧
      ((match l.head? with | some c => isUnd c = false | none => True) →
        replaceNonAlnumRuns isAlnumLower true l = l) := by
  intro l
  induction l with
  | nil => intro _ _; exact ⟨rfl, fun _ => rfl⟩
  | cons x xs ih =>
    intro hall hnd
    simp only [List.all_cons, Bool.and_eq_true] at hall
    rw [noDoubleUnd_cons] at hnd
    simp only [Bool.and_eq_true] at hnd
    have ihx := ih hall.2 hnd.2
    by_cases hx : isUnd x
    · have hxa : isAlnumLower x = false := by
        rw [isUnd_eq x hx]; decide
      have hhd : (match xs.head? with | some c => isUnd c = false | none => True) := by
        have hnd1 := hnd.1
        cases hxs : xs.head? with
        | none => trivial
        | some d =>
          rw [hxs] at hnd1
          simpa [hx] using hnd1
      constructor
      · unfold replaceNonAlnumRuns
        rw [if_neg (by simp [hxa]), if_neg (by simp)]
        rw [← isUnd_eq x hx]
        congr 1
        exact ihx.2 hhd
      · intro hcontra
        have hc : isUnd x = false := hcontra
        rw [hx] at hc
        exact Bool.noConfusion hc
    · have hxa : isAlnumLower x = true := by
        have h1 := hall.1
        cases h0 : isAlnumLower x with
        | true => rfl
        | false =>
          rw [h0] at h1
          simp at h1
          exact absurd h1 hx
      have h1 : replaceNonAlnumRuns isAlnumLower false (x :: xs) = x :: xs := by
        unfold replaceNonAlnumRuns
        rw [if_pos hxa]
        congr 1
        exact ihx.1
      refine ⟨h1, fun _ => ?_⟩
      unfold replaceNonAlnumRuns
      rw [if_pos hxa]
      congr 1
      exact ihx.1

theorem dropWhile_id_of_head (p : Char → Bool) (l : List Char)
    (h : match l.head? with | some a => p a = false | none => True) :
    l.dropWhile p = l := by
  cases l with
  | nil => rfl
  | cons x xs =>
    have hx : p x = false := h
    rw [List.dropWhile_cons, if_neg (by simp [hx])]

theorem trimUnderscores_fix (l : List Char)
    (hh : match l.head? with | some a => isUnd a = false | none => True)
    (hl : match l.getLast? with | some a => isUnd a = false | none => True) :
    trimUnderscores l = l := by
  unfold trimUnderscores
  rw [dropWhile_id_of_head isUnd l hh]
  have h2 : (match l.reverse.head? with | some a => isUnd a = false | none => True) := by
    rw [List.head?_reverse]
    exact hl
  rw [dropWhile_id_of_head isUnd l.reverse h2]
  exact List.reverse_reverse l

theorem collapseUnderscores_fix :
    ∀ (l : List Char), noDoubleUnd l = true →
      collapseUnderscores false l = l ∧
      ((match l.head? with | some c => isUnd c = false | none => True) →
        collapseUnderscores true l = l) := by
  intro l
  induction l with
  | nil => intro _; exact ⟨rfl, fun _ => rfl⟩
  | cons x xs ih =>
    intro hnd
    rw [noDoubleUnd_cons] at hnd
    simp only [Bool.and_eq_true] at hnd
    have ihx := ih hnd.2
    by_cases hx : isUnd x
    · have hhd : (match xs.head? with | some c => isUnd c = false | none => True) := by
        have hnd1 := hnd.1
        cases hxs : xs.head? with
        | none => trivial
        | some d =>
          rw [hxs] at hnd1
          simpa [hx] using hnd1
      constructor
      · unfold collapseUnderscores
        rw [if_pos hx]
        simp only [Bool.false_eq_true, if_false]
        rw [← isUnd_eq x hx]
        congr 1
        exact ihx.2 hhd
      · intro hcontra
        have hc : isUnd x = false := hcontra
        rw [hx] at hc
        exact Bool.noConfusion hc
    · have hx2 : isUnd x = false := by
        cases h0 : isUnd x with
        | false => rfl
        | true => exact absurd h0 hx
      have h1 : collapseUnderscores false (x :: xs) = x :: xs := by
        unfold collapseUnderscores
        rw [if_neg (by simp [hx2])]
        congr 1
        exact ihx.1
      refine ⟨h1, fun _ => ?_⟩
      unfold collapseUnderscores
      rw [if_neg (by simp [hx2])]
      congr 1
      exact ihx.1

theorem sanitizeSegmentChars_sane (l : List Char) :
    saneSegmentChars (sanitizeSegmentChars l) = true := by
  unfold sanitizeSegmentChars
  set m := replaceNonAlnumRuns isAlnumLower false (l.map jsLower) with hm
  set t := trimUnderscores m with ht
  unfold saneSegmentChars
  simp only [Bool.and_eq_true]
  refine ⟨⟨⟨?_, ?_⟩, ?_⟩, ?_⟩
  · -- every character is in [a-z0-9_]
    rw [List.all_eq_true]
    intro c hc
    have h1 := mem_trimUnderscores m c (mem_collapseUnderscores t false c hc)
    rcases mem_replaceNonAlnumRuns isAlnumLower (l.map jsLower) false c h1 with h2 | h2
    · simp [h2]
    · simp [h2, isUnd]
  · -- no leading underscore
    cases hh : (collapseUnderscores false t).head? with
    | none => rfl
    | some a =>
      cases ht2 : t.head? with
      | none =>
        have : t = [] := List.head?_eq_none_iff.mp ht2
        rw [this] at hh
        simp [collapseUnderscores] at hh
      | some a0 =>
        have ha0 : isUnd a0 = false := head?_trimUnderscores m a0 ht2
        have h3 := head?_collapseUnderscores_false t a0 ht2 ha0
        rw [h3] at hh
        injection hh with hh2
        simp [← hh2, ha0]
  · -- no trailing underscore
    cases hl : (collapseUnderscores false t).getLast? with
    | none => rfl
    | some a =>
      cases h0 : isUnd a with
      | false => simp [h0]
      | true =>
        have ha : a = '_' := isUnd_eq a h0
        rw [ha] at hl
        have h1 := getLast?_collapseUnderscores_und t false hl
        have h2 := getLast?_trimUnderscores m '_' h1
        simp [isUnd] at h2
  · exact noDoubleUnd_collapseUnderscores t false

theorem sanitizeSegmentChars_fix (l : List Char) (h : saneSegmentChars l = true) :
    sanitizeSegmentChars l = l := by
  unfold saneSegmentChars at h
  simp only [Bool.and_eq_true] at h
  obtain ⟨⟨⟨hall, hhd⟩, hlst⟩, hnd⟩ := h
  have hhd2 : (match l.head? with | some a => isUnd a = false | none => True) := by
    cases hh : l.head? with
    | none => trivial
    | some a =>
      rw [hh] at hhd
      simpa using hhd
  have hlst2 : (match l.getLast? with | some a => isUnd a = false | none => True) := by
    cases hh : l.getLast? with
    | none => trivial
    | some a =>
      rw [hh] at hlst
      simpa using hlst
  unfold sanitizeSegmentChars
  rw [map_jsLower_fix l hall]
  rw [(replaceNonAlnumRuns_fix l hall hnd).1]
  rw [trimUnderscores_fix l hhd2 hlst2]
  exact (collapseUnderscores_fix l hnd).1

/-- C8: sanitizeSegment is idempotent, its output matches [a-z0-9_]* with no
leading or trailing underscore and no repeated underscores, and it is a
deterministic total Lean function (it never fails). -/
theorem sanitizeSegment_idempotent_and_pattern (x : String) :
    sanitizeSegment (sanitizeSegment x) = sanitizeSegment x ∧
    saneSegmentChars (sanitizeSegment x).data = true := by
  have hs : saneSegmentChars (sanitizeSegmentChars x.data) = true :=
    sanitizeSegmentChars_sane x.data
  constructor
  · exact congrArg String.mk (sanitizeSegmentChars_fix _ hs)
  · exact hs

/-! ## A model of String.prototype.localeCompare

The source sorts discovered paths, template-variable names and registry keys
with the locale-sensitive collation of localeCompare.  The model captures the
behaviour of the ICU collation shipped with Node at the granularity the
theorems need: at the primary level punctuation and symbols sort before
digits and digits before letters, letters compare case-insensitively; at the
tertiary level lower case sorts before upper case.  Within the
non-alphanumeric class the order approximates the root collation by code
point. -/

/-- Primary collation weight of a character. -/
def primaryWeight (c : Char) : Nat :=
  if 97 ≤ (jsLower c).toNat ∧ (jsLower c).toNat ≤ 122 then 2000 + (jsLower c).toNat
  else if 48 ≤ c.toNat ∧ c.toNat ≤ 57 then 1000 + c.toNat
  else 1 + c.toNat

/-- Tertiary collation weight of a character. -/
def tertiaryWeight (c : Char) : Nat :=
  if 65 ≤ c.toNat ∧ c.toNat ≤ 90 then 2 else 1

/-- Collation key of a string: primary weights, a separator below every
weight, then tertiary weights. -/
def collationKey (s : String) : List Nat :=
  s.data.map primaryWeight ++ 0 :: s.data.map tertiaryWeight

/-- Lexicographic less-or-equal on weight lists. -/
def lexLeN : List Nat → List Nat → Bool
  | [], _ => true
  | _ :: _, [] => false
  | a :: as, b :: bs => if a < b then true else if b < a then false else lexLeN as bs

/-- a.localeCompare(b) <= 0, the form in which every sort callback of the
source consumes the comparison. -/
def localeLe (a b : String) : Bool := lexLeN (collationKey a) (collationKey b)

theorem lexLeN_total : ∀ a b : List Nat, lexLeN a b = true ∨ lexLeN b a = true := by
  intro a
  induction a with
  | nil => intro b; exact Or.inl rfl
  | cons x xs ih =>
    intro b
    cases b with
    | nil => exact Or.inr rfl
    | cons y ys =>
      unfold lexLeN
      by_cases hxy : x < y
      · left; rw [if_pos hxy]
      · by_cases hyx : y < x
        · right; rw [if_pos hyx]
        · rw [if_neg hxy, if_neg hyx, if_neg hyx, if_neg hxy]
          exact ih ys

theorem lexLeN_trans :
    ∀ a b c : List Nat, lexLeN a b = true → lexLeN b c = true → lexLeN a c = true := by
  intro a
  induction a with
  | nil => intro b c _ _; rfl
  | cons x xs ih =>
    intro b c hab hbc
    cases b with
    | nil => simp [lexLeN] at hab
    | cons y ys =>
      cases c with
      | nil => simp [lexLeN] at hbc
      | cons z zs =>
        unfold lexLeN at hab hbc ⊢
        by_cases hxy : x < y
        · rw [if_pos hxy] at hab
          by_cases hyz : y < z
          · rw [if_pos (by omega : x < z)]
          · by_cases hzy : z < y
            · rw [if_neg hyz, if_pos hzy] at hbc
              exact Bool.noConfusion hbc
            · rw [if_pos (by omega : x < z)]
        · by_cases hyx : y < x
          · rw [if_neg hxy, if_pos hyx] at hab
            exact Bool.noConfusion hab
          · have hxy2 : x = y := by omega
            subst hxy2
            rw [if_neg hxy, if_neg hyx] at hab
            by_cases hxz : x < z
            · rw [if_pos hxz]
            · by_cases hzx : z < x
              · rw [if_neg hxz, if_pos hzx] at hbc
                exact Bool.noConfusion hbc
              · rw [if_neg hxz, if_neg hzx] at hbc ⊢
                exact ih ys zs hab hbc

/-- The ordering relation used for sorting strings by localeCompare. -/
def locLe (a b : String) : Prop := localeLe a b = true

instance : DecidableRel locLe := fun a b => by
  unfold locLe
  infer_instance

instance : IsTotal String locLe :=
  ⟨fun a b => lexLeN_total (collationKey a) (collationKey b)⟩

instance : IsTrans String locLe :=
  ⟨fun a b c => lexLeN_trans (collationKey a) (collationKey b) (collationKey c)⟩

/-! ## Paths

Absolute filesystem paths are modelled as lists of path segments. -/

abbrev PathSegs := List String

/-- Length of the longest common prefix of two segment lists. -/
def commonPrefixLen : PathSegs → PathSegs → Nat
  | a :: as, b :: bs => if a = b then 1 + commonPrefixLen as bs else 0
  | _, _ => 0

/-- path.relative for absolute POSIX paths in segment form: strip the common
prefix, then one parent-directory token per remaining base segment followed
by the remaining target segments.  Between two absolute POSIX paths the
result is never itself absolute, so the path.isAbsolute disjunct of the
source checks is constantly false in this model. -/
def relSegs (base p : PathSegs) : PathSegs :=
  List.replicate (base.length - commonPrefixLen base p) ".." ++ p.drop (commonPrefixLen base p)

/-- The POSIX-joined form of a segment list: split(path.sep).join(slash) in
the source. -/
def joinSlash (segs : List String) : String := String.intercalate "/" segs

/-- The escape check of discover.ts and naming.ts:
rel is falsy, or rel.startsWith(two dots), or rel is absolute (never, here).
On the joined string startsWith holds exactly when the first segment starts
with two dots. -/
def startsDotDot (s : String) : Bool :=
  match s.data with
  | c1 :: c2 :: _ => c1 == '.' && c2 == '.'
  | _ => false

def relEscapes (rel : PathSegs) : Bool :=
  match rel with
  | [] => true
  | s :: _ => startsDotDot s

theorem commonPrefixLen_append : ∀ a xs : PathSegs, commonPrefixLen a (a ++ xs) = a.length := by
  intro a
  induction a with
  | nil => intro xs; cases xs <;> rfl
  | cons s ss ih =>
    intro xs
    show (if s = s then 1 + commonPrefixLen ss (ss ++ xs) else 0) = (s :: ss).length
    rw [if_pos rfl, ih xs]
    simp
    omega

theorem relSegs_append (a xs : PathSegs) : relSegs a (a ++ xs) = xs := by
  unfold relSegs
  rw [commonPrefixLen_append]
  simp

theorem commonPrefixLen_le_left : ∀ a b : PathSegs, commonPrefixLen a b ≤ a.length := by
  intro a
  induction a with
  | nil => intro b; cases b <;> simp [commonPrefixLen]
  | cons s ss ih =>
    intro b
    cases b with
    | nil => simp [commonPrefixLen]
    | cons t ts =>
      unfold commonPrefixLen
      by_cases h : s = t
      · rw [if_pos h]
        have := ih ts
        simp
        omega
      · rw [if_neg h]
        simp

theorem prefix_of_commonPrefixLen :
    ∀ a b : PathSegs, commonPrefixLen a b = a.length → ∃ xs, b = a ++ xs := by
  intro a
  induction a with
  | nil => intro b _; exact ⟨b, rfl⟩
  | cons s ss ih =>
    intro b h
    cases b with
    | nil => simp [commonPrefixLen] at h
    | cons t ts =>
      unfold commonPrefixLen at h
      by_cases hst : s = t
      · rw [if_pos hst] at h
        simp only [List.length_cons] at h
        obtain ⟨xs, hxs⟩ := ih ts (by omega)
        refine ⟨xs, ?_⟩
        rw [hxs, hst]
        simp
      · rw [if_neg hst] at h
        simp at h

/-- A non-escaping relative path means the target extends the base by at
least one segment, and relSegs returns exactly that extension. -/
theorem relSegs_nonescape (base p : PathSegs) (h : relEscapes (relSegs base p) = false) :
    ∃ rel, p = base ++ rel ∧ rel ≠ [] ∧ relSegs base p = rel := by
  by_cases hk : commonPrefixLen base p = base.length
  · obtain ⟨xs, hxs⟩ := prefix_of_commonPrefixLen base p hk
    refine ⟨xs, hxs, ?_, by rw [hxs]; exact relSegs_append base xs⟩
    intro hnil
    rw [hxs, hnil] at h
    rw [relSegs_append] at h
    simp [relEscapes] at h
  · have hlt : commonPrefixLen base p < base.length := by
      have := commonPrefixLen_le_left base p
      omega
    unfold relSegs at h
    have hrep : base.length - commonPrefixLen base p ≠ 0 := by omega
    cases hn : base.length - commonPrefixLen base p with
    | zero => exact absurd hn hrep
    | succ k =>
      rw [hn] at h
      simp only [List.replicate_succ, List.cons_append] at h
      have h2 : relEscapes (".." :: (List.replicate k ".." ++
          p.drop (commonPrefixLen base p))) = true := by
        show startsDotDot ".." = true
        decide
      exact absurd (h.symm.trans h2) Bool.noConfusion

/-! ## String helpers shared by the naming and runner models -/

/-- ASCII part of the regex class backslash-s, enough for the characters the
repository files contain. -/
def isJsWhitespace (c : Char) : Bool :=
  c == ' ' || c == Char.ofNat 9 || c == Char.ofNat 10 || c == Char.ofNat 13 ||
  c == Char.ofNat 11 || c == Char.ofNat 12

/-- String.prototype.toLowerCase over the modelled ASCII range. -/
def lowerStr (s : String) : String := ⟨s.data.map jsLower⟩

/-- String.prototype.trimEnd. -/
def trimEndStr (s : String) : String := ⟨(s.data.reverse.dropWhile isJsWhitespace).reverse⟩

/-- String.prototype.trimStart. -/
def trimStartStr (s : String) : String := ⟨s.data.dropWhile isJsWhitespace⟩

/-- String.prototype.trim. -/
def trimStr (s : String) : String := trimEndStr (trimStartStr s)

/-- Last-character test, a kernel-reducible form of endsWith for a
one-character suffix. -/
def endsWithChar (s : String) (c : Char) : Bool :=
  match s.data.getLast? with
  | some d => d == c
  | none => false

/-- String.prototype.split for a one-character separator, over characters. -/
def splitOnChar (sep : Char) : List Char → List (List Char)
  | [] => [[]]
  | c :: cs =>
    if c = sep then [] :: splitOnChar sep cs
    else
      match splitOnChar sep cs with
      | [] => [[c]]
      | p :: ps => (c :: p) :: ps

deriving instance DecidableEq for Except

/-- A typed application error: the AppError class of errors.ts carries a
machine-stable code and a human-readable message. -/
structure AppError where
  code : String
  message : String
deriving Repr, DecidableEq

/-! ## Naming (naming.ts) -/

/-- The regex TOOL_NAME_PATTERN = /^[a-z0-9_]+$/. -/
def toolNamePattern (s : String) : Bool :=
  (!s.data.isEmpty) && s.data.all (fun c => isAlnumLower c || isUnd c)

/-- validateToolName from naming.ts: the name must be non-empty and match the
tool-name pattern. -/
def validateToolName (input : String) : Except AppError String :=
  if input.data.isEmpty then
    .error ⟨"E_ARGS", "Tool name cannot be empty."⟩
  else if !input.data.all (fun c => isAlnumLower c || isUnd c) then
    .error ⟨"E_ARGS", "Tool name must match the tool-name pattern"⟩
  else .ok input

/-- replace(/\.bru$/i, empty): drop one case-insensitive .bru suffix. -/
def stripBruSuffix (s : String) : String :=
  let n := s.data.length
  if 4 ≤ n ∧ (s.data.drop (n - 4)).map jsLower = ['.', 'b', 'r', 'u'] then
    ⟨s.data.take (n - 4)⟩
  else s

/-- endsWith for a literal .bru suffix (case-sensitive, as used by
discover.ts and path.basename). -/
def endsWithBru (s : String) : Bool :=
  s.data.length ≥ 4 && s.data.drop (s.data.length - 4) == ['.', 'b', 'r', 'u']

/-- path.basename(p, ext) for ext = .bru: the last path segment, with one
case-sensitive .bru suffix removed unless the segment is exactly the
extension. -/
def basenameMinusBru (seg : String) : String :=
  if seg ≠ ".bru" ∧ endsWithBru seg then ⟨seg.data.take (seg.data.length - 4)⟩ else seg

/-- The last segment of a relative path: path.basename. -/
def lastSeg (l : PathSegs) : String := (l.getLast?).getD ""

/-- buildToolNameFromRelativePath from naming.ts, over the POSIX-joined
relative path: strip the extension, split on slashes, drop empty segments,
sanitize each segment (each must stay non-empty), join with underscores
behind the prefix, and validate the result. -/
def buildToolNameFromRelativePath (pfx : String) (relPosix : String) :
    Except AppError String :=
  let normalized := stripBruSuffix relPosix
  let pieces := (splitOnChar '/' normalized.data).map (fun l => (⟨l⟩ : String))
  let segments := (pieces.filter (fun s => s ≠ "")).map sanitizeSegment
  if segments.all (fun s => !s.data.isEmpty) then
    validateToolName (pfx ++ "_" ++ String.intercalate "_" segments)
  else .error ⟨"E_NAMING", "Invalid path segment in " ++ relPosix⟩

/-! ### Template-variable extraction (naming.ts lines 106-118)

The regex /\x7b\x7b\s*([a-zA-Z0-9_.-]+)\s*\x7d\x7d/g is scanned
left-to-right without overlap: at each position either the pattern matches
(and scanning resumes after the match) or the scanner advances one
character.  Greedy matching is exact here because the whitespace class, the
name class and the closing braces are pairwise disjoint. -/

/-- The regex class [a-zA-Z0-9_.-]. -/
def isVarNameChar (c : Char) : Bool :=
  (97 ≤ c.toNat && c.toNat ≤ 122) || (65 ≤ c.toNat && c.toNat ≤ 90) ||
  (48 ≤ c.toNat && c.toNat ≤ 57) || c == '_' || c == '.' || c == '-'

/-- Body of a template-variable match, after the two opening braces: skip
whitespace, capture a maximal non-empty run of name characters, skip
whitespace, and require the two closing braces; returns the captured name
and the characters after the match. -/
def matchTemplateVarBody (rest : List Char) : Option (String × List Char) :=
  match (rest.dropWhile isJsWhitespace).takeWhile isVarNameChar,
        ((rest.dropWhile isJsWhitespace).dropWhile isVarNameChar).dropWhile isJsWhitespace with
  | [], _ => none
  | a :: as, d1 :: d2 :: rest3 =>
    if d1 = '\x7d' ∧ d2 = '\x7d' then some (⟨a :: as⟩, rest3) else none
  | _, _ => none

/-- Try to match the template-variable pattern at the head of the list. -/
def matchTemplateVarAt : List Char → Option (String × List Char)
  | c1 :: c2 :: rest =>
    if c1 = '\x7b' ∧ c2 = '\x7b' then matchTemplateVarBody rest else none
  | _ => none

theorem length_dropWhile_le (p : Char → Bool) (l : List Char) :
    (l.dropWhile p).length ≤ l.length := (List.dropWhile_sublist p).length_le

theorem matchTemplateVarBody_shrinks (rest : List Char) (n : String) (out : List Char)
    (h : matchTemplateVarBody rest = some (n, out)) : out.length < rest.length := by
  have h1 : (rest.dropWhile isJsWhitespace).length ≤ rest.length :=
    length_dropWhile_le ..
  have h2 : ((rest.dropWhile isJsWhitespace).dropWhile isVarNameChar).length ≤
      (rest.dropWhile isJsWhitespace).length := length_dropWhile_le ..
  have h3 : (((rest.dropWhile isJsWhitespace).dropWhile isVarNameChar).dropWhile
      isJsWhitespace).length ≤
      ((rest.dropWhile isJsWhitespace).dropWhile isVarNameChar).length :=
    length_dropWhile_le ..
  unfold matchTemplateVarBody at h
  cases hname : (rest.dropWhile isJsWhitespace).takeWhile isVarNameChar with
  | nil => rw [hname] at h; exact Option.noConfusion h
  | cons a as =>
    rw [hname] at h
    cases hr2 : ((rest.dropWhile isJsWhitespace).dropWhile isVarNameChar).dropWhile
        isJsWhitespace with
    | nil => rw [hr2] at h; exact Option.noConfusion h
    | cons d1 ds =>
      rw [hr2] at h
      cases ds with
      | nil => exact Option.noConfusion h
      | cons d2 rest3 =>
        have h4 : (if d1 = '\x7d' ∧ d2 = '\x7d' then
            some ((⟨a :: as⟩ : String), rest3) else none) = some (n, out) := h
        by_cases hdd : d1 = '\x7d' ∧ d2 = '\x7d'
        · rw [if_pos hdd] at h4
          simp only [Option.some.injEq, Prod.mk.injEq] at h4
          have hout : out = rest3 := h4.2.symm
          subst hout
          rw [hr2] at h3
          simp only [List.length_cons] at h3
          omega
        · rw [if_neg hdd] at h4
          exact Option.noConfusion h4

theorem matchTemplateVarAt_shrinks :
    ∀ (l : List Char) (n : String) (rest : List Char),
      matchTemplateVarAt l = some (n, rest) → rest.length < l.length := by
  intro l n rest h
  match l with
  | [] => exact Option.noConfusion h
  | [c] => exact Option.noConfusion h
  | c1 :: c2 :: tl =>
    have h2 : (if c1 = '\x7b' ∧ c2 = '\x7b' then matchTemplateVarBody tl else none) =
        some (n, rest) := h
    by_cases hbb : c1 = '\x7b' ∧ c2 = '\x7b'
    · rw [if_pos hbb] at h2
      have h3 := matchTemplateVarBody_shrinks tl n rest h2
      simp only [List.length_cons]
      omega
    · rw [if_neg hbb] at h2
      exact Option.noConfusion h2

/-- All matches of the template-variable regex, in order of occurrence.  The
fuel argument keeps the recursion structural so the function evaluates inside
the kernel; one unit of fuel is spent per consumed character, so fuel equal
to the length of the input is always sufficient. -/
def scanTemplateVarsFuel : Nat → List Char → List String
  | 0, _ => []
  | _ + 1, [] => []
  | fuel + 1, c :: cs =>
    match matchTemplateVarAt (c :: cs) with
    | some (name, rest) => name :: scanTemplateVarsFuel fuel rest
    | none => scanTemplateVarsFuel fuel cs

def scanTemplateVars (l : List Char) : List String := scanTemplateVarsFuel l.length l

/-- Set insertion order: keep the first occurrence of each element.  Fuelled
for the same reason as the scanner. -/
def dedupFirstFuel : Nat → List String → List String
  | 0, _ => []
  | _ + 1, [] => []
  | fuel + 1, x :: xs => x :: dedupFirstFuel fuel (xs.filter (fun y => y ≠ x))

def dedupFirst (l : List String) : List String := dedupFirstFuel l.length l

/-- extractTemplateVariables from naming.ts over file content: the distinct
captured names, sorted with localeCompare. -/
def extractTemplateVariables (content : String) : List String :=
  List.insertionSort locLe (dedupFirst (scanTemplateVars content.data))

example : extractTemplateVariables "url=\x7b\x7b base_url \x7d\x7d/q?\x7b\x7bid\x7d\x7d" =
    ["base_url", "id"] := by decide
example : extractTemplateVariables "plain body" = [] := by decide
example : extractTemplateVariables "\x7b\x7b b \x7d\x7d \x7b\x7b a \x7d\x7d \x7b\x7b b \x7d\x7d" =
    ["a", "b"] := by decide

/-! ### Documentation extraction (naming.ts lines 62-99) -/

/-- One piece of content.split(/\r?\n/): splitting on the newline character
and stripping a single carriage return left at the end of a piece. -/
def stripTrailingCR (s : String) : String :=
  if endsWithChar s '\r' then ⟨s.data.dropLast⟩ else s

def splitLines (content : String) : List String :=
  (splitOnChar '\n' content.data).map (fun l => stripTrailingCR ⟨l⟩)

/-- Test /^\s*docs\s*\x7b/ and, on success, return the characters after the
opening brace. -/
def docsOpenRest (line : String) : Option (List Char) :=
  let l1 := line.data.dropWhile isJsWhitespace
  if l1.take 4 = ['d', 'o', 'c', 's'] then
    match (l1.drop 4).dropWhile isJsWhitespace with
    | c :: rest => if c = '\x7b' then some rest else none
    | [] => none
  else none

/-- replace(/\s*\x7d$/, empty): drop one trailing closing brace together with
the whitespace in front of it. -/
def stripTrailingClose (s : String) : String :=
  if endsWithChar s '\x7d' then trimEndStr ⟨s.data.dropLast⟩ else s

/-- contentLines.join(newline).trim(), mapped to the Option result of the
source: empty text means no documentation. -/
def joinTrimDocs (lines : List String) : Option String :=
  let out := trimStr (String.intercalate "\n" lines)
  if out = "" then none else some out

/-- The multi-line loop of extractDocsFromBruContent: collect lines until one
matching /^\s*\x7d\s*$/, then join and trim; an unclosed block at the end of
the file still yields its collected content. -/
def scanDocsClose (acc : List String) : List String → Option String
  | [] => joinTrimDocs acc
  | line :: rest =>
    if trimStr line = "\x7d" then joinTrimDocs acc
    else scanDocsClose (acc ++ [line]) rest

/-- extractDocsFromBruContent from naming.ts, over the split lines: find the
first docs-opening line, handle a possible inline body on that line, then
scan for the closing line. -/
def extractDocsLines : List String → Option String
  | [] => none
  | line :: rest =>
    match docsOpenRest line with
    | none => extractDocsLines rest
    | some afterBrace =>
      let restOfFirstLine := trimEndStr ⟨afterBrace.dropWhile isJsWhitespace⟩
      if restOfFirstLine ≠ "" ∧ restOfFirstLine ≠ "\x7d" then
        let upToClose := trimStr (stripTrailingClose restOfFirstLine)
        let acc := if upToClose ≠ "" then [upToClose] else []
        if endsWithChar restOfFirstLine '\x7d' then joinTrimDocs acc
        else scanDocsClose acc rest
      else scanDocsClose [] rest

def extractDocsFromBruContent (content : String) : Option String :=
  extractDocsLines (splitLines content)

example : extractDocsFromBruContent "docs \x7b Single line description \x7d\n" =
    some "Single line description" := by decide
example : extractDocsFromBruContent "meta \x7b\n  name: x\n\x7d\n" = none := by decide
example : extractDocsFromBruContent "docs \x7b\n  Login docs\n\x7d\nmeta \x7b\x7d\n" =
    some "Login docs" := by decide

/-! ### Tool targets and registry construction (naming.ts lines 120-198) -/

/-- The Tool Target record of naming.ts. -/
structure ToolTarget where
  toolName : String
  bruFileAbs : PathSegs
  collectionRootAbs : PathSegs
  requestPathNoExt : String
  requiresEnv : Bool
  templateVars : List String
  docs : Option String := none
deriving Repr, DecidableEq

/-- One step of buildCollectionToolMap for a single file, given the registry
keys built so far.  Returns none for the skipped collection metadata file. -/
def collectionStep (rootAbs : PathSegs) (pfx : String) (contentOf : PathSegs → String)
    (existingKeys : List String) (f : PathSegs) :
    Except AppError (Option (String × ToolTarget)) :=
  let rel := relSegs rootAbs f
  if relEscapes rel then
    .error ⟨"E_DISCOVERY", "Path traversal blocked for discovered file: " ++ joinSlash f⟩
  else if lowerStr (lastSeg rel) = "collection.bru" then
    .ok none
  else
    match buildToolNameFromRelativePath pfx (joinSlash rel) with
    | .error e => .error e
    | .ok toolName =>
      if existingKeys.contains toolName then
        .error ⟨"E_NAMING", "Tool name collision after sanitization: " ++ toolName⟩
      else
        let templateVars := extractTemplateVariables (contentOf f)
        .ok (some (toolName,
          { toolName := toolName
            bruFileAbs := f
            collectionRootAbs := rootAbs
            requestPathNoExt := stripBruSuffix (joinSlash rel)
            requiresEnv := !templateVars.isEmpty
            templateVars := templateVars
            docs := extractDocsFromBruContent (contentOf f) }))

/-- The file loop of buildCollectionToolMap, threading the registry being
built in insertion order. -/
def collectionLoop (rootAbs : PathSegs) (pfx : String) (contentOf : PathSegs → String) :
    List (String × ToolTarget) → List PathSegs →
    Except AppError (List (String × ToolTarget))
  | acc, [] => .ok acc
  | acc, f :: fs =>
    match collectionStep rootAbs pfx contentOf (acc.map Prod.fst) f with
    | .error e => .error e
    | .ok none => collectionLoop rootAbs pfx contentOf acc fs
    | .ok (some entry) => collectionLoop rootAbs pfx contentOf (acc ++ [entry]) fs

/-- buildCollectionToolMap from naming.ts: build the registry over the file
list and return it sorted by identifier with localeCompare. -/
def buildCollectionToolMap (files : List PathSegs) (rootAbs : PathSegs) (pfx : String)
    (contentOf : PathSegs → String) : Except AppError (List (String × ToolTarget)) :=
  match collectionLoop rootAbs pfx contentOf [] files with
  | .error e => .error e
  | .ok acc => .ok (List.insertionSort (fun a b => locLe a.1 b.1) acc)

/-- buildSingleToolMap from naming.ts. -/
def buildSingleToolMap (bruFileAbs : PathSegs) (rootAbs : PathSegs) (pfx : String)
    (nameOverride : Option String) (contentOf : PathSegs → String) :
    Except AppError (List (String × ToolTarget)) :=
  let fileStem := sanitizeSegment (basenameMinusBru (lastSeg bruFileAbs))
  if fileStem = "" then
    .error ⟨"E_NAMING", "Invalid single request file name: " ++ joinSlash bruFileAbs⟩
  else
    match (match nameOverride with
           | some n => if n ≠ "" then validateToolName n
                       else validateToolName (pfx ++ "_" ++ fileStem)
           | none => validateToolName (pfx ++ "_" ++ fileStem)) with
    | .error e => .error e
    | .ok toolName =>
      let templateVars := extractTemplateVariables (contentOf bruFileAbs)
      let rel := relSegs rootAbs bruFileAbs
      if relEscapes rel then
        .error ⟨"E_DISCOVERY",
          "Path traversal blocked for discovered file: " ++ joinSlash bruFileAbs⟩
      else
        .ok [(toolName,
          { toolName := toolName
            bruFileAbs := bruFileAbs
            collectionRootAbs := rootAbs
            requestPathNoExt := stripBruSuffix (joinSlash rel)
            requiresEnv := !templateVars.isEmpty
            templateVars := templateVars
            docs := extractDocsFromBruContent (contentOf bruFileAbs) })]

example : buildToolNameFromRelativePath "billing" "auth/login.bru" =
    .ok "billing_auth_login" := by decide

example :
    buildCollectionToolMap [["root", "collection.bru"], ["root", "auth", "get-breeds.bru"]]
      ["root"] "the_cat_api" (fun _ => "meta \x7b\x7d") =
    .ok [("the_cat_api_auth_get_breeds",
      { toolName := "the_cat_api_auth_get_breeds"
        bruFileAbs := ["root", "auth", "get-breeds.bru"]
        collectionRootAbs := ["root"]
        requestPathNoExt := "auth/get-breeds"
        requiresEnv := false
        templateVars := []
        docs := none })] := by decide

/-! ### Invariants of the built registries (claims about naming) -/

theorem validateToolName_ok (input out : String) (h : validateToolName input = .ok out) :
    out = input ∧ toolNamePattern input = true := by
  unfold validateToolName at h
  by_cases h1 : input.data.isEmpty
  · rw [if_pos h1] at h
    exact Except.noConfusion h
  · rw [if_neg h1] at h
    by_cases h2 : input.data.all (fun c => isAlnumLower c || isUnd c)
    · rw [if_neg (by simp [h2])] at h
      injection h with h3
      refine ⟨h3.symm, ?_⟩
      unfold toolNamePattern
      simp only [Bool.and_eq_true, Bool.not_eq_true]
      constructor
      · cases h4 : input.data.isEmpty with
        | false => rfl
        | true => exact absurd h4 h1
      · exact h2
    · rw [if_pos (by simp [h2])] at h
      exact Except.noConfusion h

theorem buildToolName_ok (pfx rel name : String)
    (h : buildToolNameFromRelativePath pfx rel = .ok name) :
    toolNamePattern name = true ∧ ∃ rest, name = pfx ++ "_" ++ rest := by
  unfold buildToolNameFromRelativePath at h
  simp only at h
  by_cases hseg : (((splitOnChar '/' (stripBruSuffix rel).data).map
      (fun l => (⟨l⟩ : String))).filter (fun s => s ≠ "")).map sanitizeSegment
      |>.all (fun s => !s.data.isEmpty)
  · rw [if_pos hseg] at h
    obtain ⟨heq, hpat⟩ := validateToolName_ok _ _ h
    subst heq
    exact ⟨hpat, ⟨_, rfl⟩⟩
  · rw [if_neg hseg] at h
    exact Except.noConfusion h

theorem prefix_isPrefixOf (pfx rest : String) :
    (pfx ++ "_").data.isPrefixOf (pfx ++ "_" ++ rest).data = true := by
  rw [List.isPrefixOf_iff_prefix, String.data_append, String.data_append,
    String.data_append]
  exact List.prefix_append ..

/-- The name choice of buildSingleToolMap always goes through
validateToolName, so a successful result matches the pattern. -/
theorem nameChoice_ok (pfx stem : String) (nameOverride : Option String) (out : String)
    (h : (match nameOverride with
          | some n => if n ≠ "" then validateToolName n
                      else validateToolName (pfx ++ "_" ++ stem)
          | none => validateToolName (pfx ++ "_" ++ stem)) = .ok out) :
    toolNamePattern out = true := by
  cases nameOverride with
  | none =>
    obtain ⟨heq, hp⟩ := validateToolName_ok _ _ h
    rw [heq]
    exact hp
  | some n =>
    have h0 : (if n ≠ "" then validateToolName n
        else validateToolName (pfx ++ "_" ++ stem)) = .ok out := h
    by_cases hn : n ≠ ""
    · rw [if_pos hn] at h0
      obtain ⟨heq, hp⟩ := validateToolName_ok _ _ h0
      rw [heq]
      exact hp
    · rw [if_neg hn] at h0
      obtain ⟨heq, hp⟩ := validateToolName_ok _ _ h0
      rw [heq]
      exact hp

/-- The invariant of claim C10 for one registry entry. -/
def entryInvariant (pfx : String) (p : String × ToolTarget) : Prop :=
  p.1 = p.2.toolName ∧ toolNamePattern p.1 = true ∧
    (pfx ++ "_").data.isPrefixOf p.1.data = true

theorem collectionStep_some_inv (rootAbs : PathSegs) (pfx : String)
    (contentOf : PathSegs → String) (keys : List String) (f : PathSegs)
    (entry : String × ToolTarget)
    (h : collectionStep rootAbs pfx contentOf keys f = .ok (some entry)) :
    buildToolNameFromRelativePath pfx (joinSlash (relSegs rootAbs f)) = .ok entry.1 ∧
    entry.2.toolName = entry.1 ∧ entry.2.bruFileAbs = f ∧
    keys.contains entry.1 = false := by
  unfold collectionStep at h
  by_cases h1 : relEscapes (relSegs rootAbs f) = true
  · rw [if_pos h1] at h
    exact Except.noConfusion h
  · rw [if_neg h1] at h
    by_cases h2 : lowerStr (lastSeg (relSegs rootAbs f)) = "collection.bru"
    · rw [if_pos h2] at h
      injection h with h3
      exact Option.noConfusion h3
    · rw [if_neg h2] at h
      cases hbt : buildToolNameFromRelativePath pfx (joinSlash (relSegs rootAbs f)) with
      | error e => rw [hbt] at h; exact Except.noConfusion h
      | ok n =>
        rw [hbt] at h
        simp only at h
        by_cases h3 : keys.contains n = true
        · rw [if_pos h3] at h
          exact Except.noConfusion h
        · rw [if_neg h3] at h
          injection h with h4
          injection h4 with h5
          subst h5
          refine ⟨by simp [hbt], rfl, rfl, ?_⟩
          cases h6 : keys.contains n with
          | false => rfl
          | true => exact absurd h6 h3

theorem collectionLoop_inv (rootAbs : PathSegs) (pfx : String)
    (contentOf : PathSegs → String) :
    ∀ (files : List PathSegs) (acc m : List (String × ToolTarget)),
      (∀ p ∈ acc, entryInvariant pfx p) →
      collectionLoop rootAbs pfx contentOf acc files = .ok m →
      ∀ p ∈ m, entryInvariant pfx p := by
  intro files
  induction files with
  | nil =>
    intro acc m hacc h
    unfold collectionLoop at h
    injection h with h2
    rw [← h2]
    exact hacc
  | cons f fs ih =>
    intro acc m hacc h
    unfold collectionLoop at h
    cases hstep : collectionStep rootAbs pfx contentOf (acc.map Prod.fst) f with
    | error e => rw [hstep] at h; exact Except.noConfusion h
    | ok o =>
      rw [hstep] at h
      cases o with
      | none => exact ih acc m hacc h
      | some entry =>
        refine ih (acc ++ [entry]) m ?_ h
        intro p hp
        rcases List.mem_append.mp hp with hp1 | hp1
        · exact hacc p hp1
        · have hpe : p = entry := by simpa using hp1
          subst hpe
          obtain ⟨hbt, ht, _, _⟩ := collectionStep_some_inv rootAbs pfx contentOf _ f p hstep
          obtain ⟨hpat, rest, hrest⟩ := buildToolName_ok _ _ _ hbt
          exact ⟨ht.symm, hpat, by rw [hrest]; exact prefix_isPrefixOf ..⟩

/-- C10: every key of a successfully built tool map equals the toolName of
the target it maps to, every toolName matches the pattern of lower-case
letters, digits and underscores, and in collection mode every toolName starts
with the supplied prefix followed by an underscore. -/
theorem toolMap_key_invariants :
    (∀ (files : List PathSegs) (rootAbs : PathSegs) (pfx : String)
        (contentOf : PathSegs → String) (m : List (String × ToolTarget)),
      buildCollectionToolMap files rootAbs pfx contentOf = .ok m →
      ∀ p ∈ m, p.1 = p.2.toolName ∧ toolNamePattern p.1 = true ∧
        (pfx ++ "_").data.isPrefixOf p.1.data = true) ∧
    (∀ (bruFileAbs rootAbs : PathSegs) (pfx : String) (nameOverride : Option String)
        (contentOf : PathSegs → String) (m : List (String × ToolTarget)),
      buildSingleToolMap bruFileAbs rootAbs pfx nameOverride contentOf = .ok m →
      ∀ p ∈ m, p.1 = p.2.toolName ∧ toolNamePattern p.1 = true) := by
  constructor
  · intro files rootAbs pfx contentOf m h p hp
    unfold buildCollectionToolMap at h
    cases hloop : collectionLoop rootAbs pfx contentOf [] files with
    | error e => rw [hloop] at h; exact Except.noConfusion h
    | ok acc =>
      rw [hloop] at h
      injection h with h2
      have hp2 : p ∈ acc := by
        rw [← List.mem_insertionSort (fun a b => locLe a.1 b.1) (l := acc), h2]
        exact hp
      exact collectionLoop_inv rootAbs pfx contentOf files [] acc
        (by intro q hq; simp at hq) hloop p hp2
  · intro bruFileAbs rootAbs pfx nameOverride contentOf m h p hp
    unfold buildSingleToolMap at h
    simp only at h
    split at h
    · exact Except.noConfusion h
    · split at h
      case h_1 e heq => exact Except.noConfusion h
      case h_2 toolName heq =>
        split at h
        · exact Except.noConfusion h
        · injection h with h3
          rw [← h3] at hp
          have hpat : toolNamePattern toolName = true :=
            nameChoice_ok pfx (sanitizeSegment (basenameMinusBru (lastSeg bruFileAbs)))
              nameOverride toolName heq
          have hpe : p = (toolName,
            { toolName := toolName
              bruFileAbs := bruFileAbs
              collectionRootAbs := rootAbs
              requestPathNoExt := stripBruSuffix (joinSlash (relSegs rootAbs bruFileAbs))
              requiresEnv := !(extractTemplateVariables (contentOf bruFileAbs)).isEmpty
              templateVars := extractTemplateVariables (contentOf bruFileAbs)
              docs := extractDocsFromBruContent (contentOf bruFileAbs) }) := by
            simpa using hp
          subst hpe
          exact ⟨rfl, hpat⟩

/-- Witness for the C10 invariants at a concrete collection build. -/
theorem toolMap_key_invariants_witness :
    ("the_cat_api_auth_get_breeds" : String) =
      (({ toolName := "the_cat_api_auth_get_breeds"
          bruFileAbs := ["root", "auth", "get-breeds.bru"]
          collectionRootAbs := ["root"]
          requestPathNoExt := "auth/get-breeds"
          requiresEnv := false
          templateVars := []
          docs := none } : ToolTarget)).toolName ∧
    toolNamePattern "the_cat_api_auth_get_breeds" = true ∧
    ("the_cat_api" ++ "_").data.isPrefixOf
      ("the_cat_api_auth_get_breeds" : String).data = true :=
  toolMap_key_invariants.1 [["root", "auth", "get-breeds.bru"]] ["root"] "the_cat_api"
    (fun _ => "meta \x7b\x7d")
    [("the_cat_api_auth_get_breeds",
      { toolName := "the_cat_api_auth_get_breeds"
        bruFileAbs := ["root", "auth", "get-breeds.bru"]
        collectionRootAbs := ["root"]
        requestPathNoExt := "auth/get-breeds"
        requiresEnv := false
        templateVars := []
        docs := none })]
    (by decide)
    ("the_cat_api_auth_get_breeds",
      { toolName := "the_cat_api_auth_get_breeds"
        bruFileAbs := ["root", "auth", "get-breeds.bru"]
        collectionRootAbs := ["root"]
        requestPathNoExt := "auth/get-breeds"
        requiresEnv := false
        templateVars := []
        docs := none })
    (by decide)

/-! ### Collision behaviour of buildCollectionToolMap (claim C3) -/

/-- The derived tool name of each eligible (contained, non-metadata,
derivable) file, in file-list order. -/
def eligibleBruNames (rootAbs : PathSegs) (pfx : String) (files : List PathSegs) :
    List String :=
  files.filterMap (fun f =>
    if relEscapes (relSegs rootAbs f) then none
    else if lowerStr (lastSeg (relSegs rootAbs f)) = "collection.bru" then none
    else match buildToolNameFromRelativePath pfx (joinSlash (relSegs rootAbs f)) with
      | .ok n => some n
      | .error _ => none)

theorem collectionStep_none_char (rootAbs : PathSegs) (pfx : String)
    (contentOf : PathSegs → String) (keys : List String) (f : PathSegs)
    (h : collectionStep rootAbs pfx contentOf keys f = .ok none) :
    relEscapes (relSegs rootAbs f) = false ∧
    lowerStr (lastSeg (relSegs rootAbs f)) = "collection.bru" := by
  unfold collectionStep at h
  by_cases h1 : relEscapes (relSegs rootAbs f) = true
  · rw [if_pos h1] at h
    exact Except.noConfusion h
  · rw [if_neg h1] at h
    refine ⟨by cases h0 : relEscapes (relSegs rootAbs f) with
      | false => rfl
      | true => exact absurd h0 h1, ?_⟩
    by_cases h2 : lowerStr (lastSeg (relSegs rootAbs f)) = "collection.bru"
    · exact h2
    · rw [if_neg h2] at h
      cases hbt : buildToolNameFromRelativePath pfx (joinSlash (relSegs rootAbs f)) with
      | error e => rw [hbt] at h; exact Except.noConfusion h
      | ok n =>
        rw [hbt] at h
        simp only at h
        by_cases h3 : keys.contains n = true
        · rw [if_pos h3] at h
          exact Except.noConfusion h
        · rw [if_neg h3] at h
          injection h with h4
          exact Option.noConfusion h4

theorem collectionStep_error_shape (rootAbs : PathSegs) (pfx : String)
    (contentOf : PathSegs → String) (keys : List String) (f : PathSegs) (e : AppError)
    (h1 : relEscapes (relSegs rootAbs f) = false)
    (h2 : lowerStr (lastSeg (relSegs rootAbs f)) = "collection.bru" ∨
      ∃ n, buildToolNameFromRelativePath pfx (joinSlash (relSegs rootAbs f)) = .ok n)
    (h : collectionStep rootAbs pfx contentOf keys f = .error e) :
    ∃ n, e = ⟨"E_NAMING", "Tool name collision after sanitization: " ++ n⟩ := by
  unfold collectionStep at h
  rw [if_neg (by simp [h1])] at h
  rcases h2 with h2 | ⟨n, hn⟩
  · rw [if_pos h2] at h
    exact Except.noConfusion h
  · by_cases h3 : lowerStr (lastSeg (relSegs rootAbs f)) = "collection.bru"
    · rw [if_pos h3] at h
      exact Except.noConfusion h
    · rw [if_neg h3, hn] at h
      simp only at h
      by_cases h4 : keys.contains n = true
      · rw [if_pos h4] at h
        injection h with h5
        exact ⟨n, h5.symm⟩
      · rw [if_neg h4] at h
        exact Except.noConfusion h

theorem collectionLoop_keys (rootAbs : PathSegs) (pfx : String)
    (contentOf : PathSegs → String) :
    ∀ (files : List PathSegs) (acc m : List (String × ToolTarget)),
      collectionLoop rootAbs pfx contentOf acc files = .ok m →
      m.map Prod.fst = acc.map Prod.fst ++ eligibleBruNames rootAbs pfx files ∧
      ((acc.map Prod.fst).Nodup → (m.map Prod.fst).Nodup) := by
  intro files
  induction files with
  | nil =>
    intro acc m h
    unfold collectionLoop at h
    injection h with h2
    subst h2
    simp [eligibleBruNames]
  | cons f fs ih =>
    intro acc m h
    unfold collectionLoop at h
    cases hstep : collectionStep rootAbs pfx contentOf (acc.map Prod.fst) f with
    | error e => rw [hstep] at h; exact Except.noConfusion h
    | ok o =>
      rw [hstep] at h
      cases o with
      | none =>
        obtain ⟨h1, h2⟩ := collectionStep_none_char rootAbs pfx contentOf _ f hstep
        have helig : eligibleBruNames rootAbs pfx (f :: fs) =
            eligibleBruNames rootAbs pfx fs := by
          unfold eligibleBruNames
          rw [List.filterMap_cons]
          rw [if_neg (by simp [h1]), if_pos h2]
        rw [helig]
        exact ih acc m h
      | some entry =>
        obtain ⟨hbt, ht, hf, hcont⟩ :=
          collectionStep_some_inv rootAbs pfx contentOf _ f entry hstep
        have hmeta : lowerStr (lastSeg (relSegs rootAbs f)) ≠ "collection.bru" := by
          intro hm
          have h0 : collectionStep rootAbs pfx contentOf (acc.map Prod.fst) f = .ok none := by
            unfold collectionStep
            rw [if_neg ?_, if_pos hm]
            · intro hesc
              -- an escaping file errors rather than producing an entry
              unfold collectionStep at hstep
              rw [if_pos hesc] at hstep
              exact Except.noConfusion hstep
          rw [hstep] at h0
          injection h0 with h0b
          exact Option.noConfusion h0b
        have hesc : relEscapes (relSegs rootAbs f) = false := by
          cases h0 : relEscapes (relSegs rootAbs f) with
          | false => rfl
          | true =>
            unfold collectionStep at hstep
            rw [if_pos h0] at hstep
            exact Except.noConfusion hstep
        have helig : eligibleBruNames rootAbs pfx (f :: fs) =
            entry.1 :: eligibleBruNames rootAbs pfx fs := by
          unfold eligibleBruNames
          rw [List.filterMap_cons]
          rw [if_neg (by simp [hesc]), if_neg hmeta, hbt]
        obtain ⟨hkeys, hnd⟩ := ih (acc ++ [entry]) m h
        constructor
        · rw [hkeys, helig]
          simp
        · intro hand
          apply hnd
          have hperm : List.Perm ((acc ++ [entry]).map Prod.fst)
              (entry.1 :: acc.map Prod.fst) := by
            rw [List.map_append]
            simp
          refine hperm.nodup_iff.mpr ?_
          rw [List.nodup_cons]
          refine ⟨?_, hand⟩
          intro hmem
          have h7 : (List.map Prod.fst acc).contains entry.1 = true :=
            List.elem_eq_true_of_mem hmem
          rw [hcont] at h7
          exact Bool.noConfusion h7

theorem collectionLoop_error_shape (rootAbs : PathSegs) (pfx : String)
    (contentOf : PathSegs → String) :
    ∀ (files : List PathSegs) (acc : List (String × ToolTarget)) (e : AppError),
      (∀ f ∈ files, relEscapes (relSegs rootAbs f) = false ∧
        (lowerStr (lastSeg (relSegs rootAbs f)) = "collection.bru" ∨
         ∃ n, buildToolNameFromRelativePath pfx (joinSlash (relSegs rootAbs f)) = .ok n)) →
      collectionLoop rootAbs pfx contentOf acc files = .error e →
      ∃ n, e = ⟨"E_NAMING", "Tool name collision after sanitization: " ++ n⟩ := by
  intro files
  induction files with
  | nil =>
    intro acc e _ h
    unfold collectionLoop at h
    exact Except.noConfusion h
  | cons f fs ih =>
    intro acc e hall h
    unfold collectionLoop at h
    cases hstep : collectionStep rootAbs pfx contentOf (acc.map Prod.fst) f with
    | error e0 =>
      rw [hstep] at h
      injection h with h2
      obtain ⟨h1, h3⟩ := hall f (List.mem_cons_self f fs)
      obtain ⟨n, hne⟩ := collectionStep_error_shape rootAbs pfx contentOf _ f e0 h1 h3 hstep
      exact ⟨n, by rw [← h2, hne]⟩
    | ok o =>
      rw [hstep] at h
      cases o with
      | none =>
        exact ih acc e (fun g hg => hall g (List.mem_cons_of_mem f hg)) h
      | some entry =>
        exact ih (acc ++ [entry]) e (fun g hg => hall g (List.mem_cons_of_mem f hg)) h

theorem collectionLoop_sub (rootAbs : PathSegs) (pfx : String)
    (contentOf : PathSegs → String) :
    ∀ (files : List PathSegs) (acc m : List (String × ToolTarget)),
      collectionLoop rootAbs pfx contentOf acc files = .ok m →
      ∀ p ∈ acc, p ∈ m := by
  intro files
  induction files with
  | nil =>
    intro acc m h p hp
    unfold collectionLoop at h
    injection h with h2
    rw [← h2]
    exact hp
  | cons f fs ih =>
    intro acc m h p hp
    unfold collectionLoop at h
    cases hstep : collectionStep rootAbs pfx contentOf (acc.map Prod.fst) f with
    | error e => rw [hstep] at h; exact Except.noConfusion h
    | ok o =>
      rw [hstep] at h
      cases o with
      | none => exact ih acc m h p hp
      | some entry =>
        exact ih (acc ++ [entry]) m h p (List.mem_append.mpr (Or.inl hp))

theorem collectionLoop_complete (rootAbs : PathSegs) (pfx : String)
    (contentOf : PathSegs → String) :
    ∀ (files : List PathSegs) (acc m : List (String × ToolTarget)),
      collectionLoop rootAbs pfx contentOf acc files = .ok m →
      ∀ f ∈ files, relEscapes (relSegs rootAbs f) = false →
        lowerStr (lastSeg (relSegs rootAbs f)) ≠ "collection.bru" →
        ∀ n, buildToolNameFromRelativePath pfx (joinSlash (relSegs rootAbs f)) = .ok n →
        ∃ t, (n, t) ∈ m ∧ t.bruFileAbs = f ∧ t.toolName = n := by
  intro files
  induction files with
  | nil => intro acc m _ f hf; simp at hf
  | cons g gs ih =>
    intro acc m h f hf hesc hmeta n hn
    unfold collectionLoop at h
    cases hstep : collectionStep rootAbs pfx contentOf (acc.map Prod.fst) g with
    | error e => rw [hstep] at h; exact Except.noConfusion h
    | ok o =>
      rw [hstep] at h
      rcases List.mem_cons.mp hf with hfg | hfg
      · subst hfg
        cases o with
        | none =>
          obtain ⟨_, h2⟩ := collectionStep_none_char rootAbs pfx contentOf _ f hstep
          exact absurd h2 hmeta
        | some entry =>
          obtain ⟨hbt, ht, hfile, _⟩ :=
            collectionStep_some_inv rootAbs pfx contentOf _ f entry hstep
          have hne : entry.1 = n := by
            rw [hn] at hbt
            injection hbt with h3
            exact h3.symm
          refine ⟨entry.2, ?_, hfile, by rw [ht, hne]⟩
          have hmem : entry ∈ acc ++ [entry] := List.mem_append.mpr (Or.inr (by simp))
          have h4 := collectionLoop_sub rootAbs pfx contentOf gs (acc ++ [entry]) m h
            entry hmem
          have h5 : (n, entry.2) = entry := by
            rw [← hne]
          rw [h5]
          exact h4
      · cases o with
        | none => exact ih acc m h f hfg hesc hmeta n hn
        | some entry => exact ih (acc ++ [entry]) m h f hfg hesc hmeta n hn

theorem buildCollectionToolMap_ok_char (files : List PathSegs) (rootAbs : PathSegs)
    (pfx : String) (contentOf : PathSegs → String) (m : List (String × ToolTarget))
    (h : buildCollectionToolMap files rootAbs pfx contentOf = .ok m) :
    List.Perm (m.map Prod.fst) (eligibleBruNames rootAbs pfx files) ∧
    (m.map Prod.fst).Nodup ∧
    (∀ f ∈ files, relEscapes (relSegs rootAbs f) = false →
      lowerStr (lastSeg (relSegs rootAbs f)) ≠ "collection.bru" →
      ∀ n, buildToolNameFromRelativePath pfx (joinSlash (relSegs rootAbs f)) = .ok n →
      ∃ t, (n, t) ∈ m ∧ t.bruFileAbs = f ∧ t.toolName = n) := by
  unfold buildCollectionToolMap at h
  cases hloop : collectionLoop rootAbs pfx contentOf [] files with
  | error e => rw [hloop] at h; exact Except.noConfusion h
  | ok acc =>
    rw [hloop] at h
    injection h with h2
    obtain ⟨hkeys, hnd⟩ := collectionLoop_keys rootAbs pfx contentOf files [] acc hloop
    simp only [List.map_nil, List.nil_append] at hkeys
    have hndacc : (acc.map Prod.fst).Nodup := hnd (by simp)
    have hperm : List.Perm (m.map Prod.fst) (acc.map Prod.fst) := by
      rw [← h2]
      exact (List.perm_insertionSort (fun a b => locLe a.1 b.1) acc).map Prod.fst
    refine ⟨hkeys ▸ hperm, hperm.nodup_iff.mpr hndacc, ?_⟩
    intro f hf hesc hmeta n hn
    obtain ⟨t, hmem, hfile, ht⟩ :=
      collectionLoop_complete rootAbs pfx contentOf files [] acc hloop f hf hesc hmeta n hn
    refine ⟨t, ?_, hfile, ht⟩
    rw [← h2]
    rw [List.mem_insertionSort]
    exact hmem

/-- C3: two eligible files that sanitize to the same tool identifier make
buildCollectionToolMap fail; when every input file is contained in the root
and either is the collection metadata file or has a derivable name, the
failure is precisely the E_NAMING collision error; and a successful build
never silently merges two files into one tool nor renames one: its keys are
exactly the distinct derived names, and every eligible file appears under
its own derived name with its own backing file. -/
theorem buildCollectionToolMap_collision (files : List PathSegs) (rootAbs : PathSegs)
    (pfx : String) (contentOf : PathSegs → String) :
    (¬ (eligibleBruNames rootAbs pfx files).Nodup →
      (∀ m, buildCollectionToolMap files rootAbs pfx contentOf ≠ .ok m) ∧
      ((∀ f ∈ files, relEscapes (relSegs rootAbs f) = false ∧
          (lowerStr (lastSeg (relSegs rootAbs f)) = "collection.bru" ∨
           ∃ n, buildToolNameFromRelativePath pfx (joinSlash (relSegs rootAbs f)) = .ok n)) →
        ∃ n, buildCollectionToolMap files rootAbs pfx contentOf =
          .error ⟨"E_NAMING", "Tool name collision after sanitization: " ++ n⟩)) ∧
    (∀ m, buildCollectionToolMap files rootAbs pfx contentOf = .ok m →
      List.Perm (m.map Prod.fst) (eligibleBruNames rootAbs pfx files) ∧
      (m.map Prod.fst).Nodup ∧
      (∀ f ∈ files, relEscapes (relSegs rootAbs f) = false →
        lowerStr (lastSeg (relSegs rootAbs f)) ≠ "collection.bru" →
        ∀ n, buildToolNameFromRelativePath pfx (joinSlash (relSegs rootAbs f)) = .ok n →
        ∃ t, (n, t) ∈ m ∧ t.bruFileAbs = f ∧ t.toolName = n)) := by
  have hok := buildCollectionToolMap_ok_char files rootAbs pfx contentOf
  refine ⟨?_, hok⟩
  intro hdup
  have hnotok : ∀ m, buildCollectionToolMap files rootAbs pfx contentOf ≠ .ok m := by
    intro m hm
    obtain ⟨hperm, hnd, _⟩ := hok m hm
    exact hdup (hperm.nodup_iff.mp hnd)
  refine ⟨hnotok, ?_⟩
  intro hall
  cases hbuild : buildCollectionToolMap files rootAbs pfx contentOf with
  | ok m => exact absurd hbuild (hnotok m)
  | error e =>
    unfold buildCollectionToolMap at hbuild
    cases hloop : collectionLoop rootAbs pfx contentOf [] files with
    | ok acc => rw [hloop] at hbuild; exact Except.noConfusion hbuild
    | error e0 =>
      rw [hloop] at hbuild
      injection hbuild with h2
      obtain ⟨n, hne⟩ :=
        collectionLoop_error_shape rootAbs pfx contentOf files [] e0 hall hloop
      exact ⟨n, by rw [← h2, hne]⟩

/-- Witness for C3 on the concrete collection of the repository test suite:
auth/login-1.bru and auth/login_1.bru both sanitize to billing_auth_login_1
and the build fails with the collision error. -/
theorem buildCollectionToolMap_collision_witness :
    ∃ n, buildCollectionToolMap
      [["root", "auth", "login-1.bru"], ["root", "auth", "login_1.bru"]]
      ["root"] "billing" (fun _ => "meta \x7b\x7d") =
      .error ⟨"E_NAMING", "Tool name collision after sanitization: " ++ n⟩ := by
  refine ((buildCollectionToolMap_collision
    [["root", "auth", "login-1.bru"], ["root", "auth", "login_1.bru"]]
    ["root"] "billing" (fun _ => "meta \x7b\x7d")).1 (by decide)).2 ?_
  intro f hf
  rcases List.mem_cons.mp hf with h1 | h1
  · subst h1
    exact ⟨by decide, Or.inr ⟨"billing_auth_login_1", by decide⟩⟩
  · have h2 : f = ["root", "auth", "login_1.bru"] := by simpa using h1
    subst h2
    exact ⟨by decide, Or.inr ⟨"billing_auth_login_1", by decide⟩⟩

/-! ## Discovery (discover.ts)

The file tree under the already-canonicalized root is an inductive value;
fs.realpath is an explicit function parameter rp so that files whose
canonical path differs from their syntactic path (the containment-escape
case the source guards against) can be expressed.  For a tree reached only
through regular directories, rp is the identity. -/

inductive FEntry where
  | file (name : String)
  | dir (name : String) (children : List FEntry)
  | symlink (name : String)
deriving Repr

mutual

/-- The per-entry body of the walk loop in discoverBruFiles: symlinks are
skipped, a directory named environments (case-insensitive) is skipped,
other directories are recursed into, and a regular .bru file is resolved
through rp and containment-checked. -/
def walkEntry (rp : PathSegs → PathSegs) (root cur : PathSegs) :
    FEntry → Except AppError (List PathSegs)
  | .symlink _ => .ok []
  | .dir name children =>
    if lowerStr name = "environments" then .ok []
    else walkList rp root (cur ++ [name]) children
  | .file name =>
    if endsWithBru name then
      if relEscapes (relSegs root (rp (cur ++ [name]))) then
        .error ⟨"E_DISCOVERY",
          "Path traversal blocked for discovered file: " ++ joinSlash (cur ++ [name])⟩
      else .ok [rp (cur ++ [name])]
    else .ok []

/-- The walk over a directory listing, accumulating results in traversal
order. -/
def walkList (rp : PathSegs → PathSegs) (root cur : PathSegs) :
    List FEntry → Except AppError (List PathSegs)
  | [] => .ok []
  | e :: es =>
    match walkEntry rp root cur e with
    | .error err => .error err
    | .ok xs =>
      match walkList rp root cur es with
      | .error err => .error err
      | .ok ys => .ok (xs ++ ys)

end

/-- discoverBruFiles from discover.ts: walk the canonical root, then sort
the absolute results by the localeCompare of their POSIX-joined relative
paths. -/
def discoverBruFiles (rp : PathSegs → PathSegs) (rootReal : PathSegs)
    (tree : List FEntry) : Except AppError (List PathSegs) :=
  match walkList rp rootReal rootReal tree with
  | .error e => .error e
  | .ok results =>
    .ok (List.insertionSort
      (fun a b => locLe (joinSlash (relSegs rootReal a)) (joinSlash (relSegs rootReal b)))
      results)

mutual

/-- Drop every symbolic link from a tree. -/
def pruneEntry : FEntry → Option FEntry
  | .symlink _ => none
  | .file n => some (.file n)
  | .dir n cs => some (.dir n (pruneList cs))

def pruneList : List FEntry → List FEntry
  | [] => []
  | e :: es =>
    match pruneEntry e with
    | none => pruneList es
    | some e2 => e2 :: pruneList es

end

mutual

/-- Whether the walk would reach a .bru file whose canonical path escapes
the root. -/
def entryHasEscape (rp : PathSegs → PathSegs) (root cur : PathSegs) : FEntry → Bool
  | .symlink _ => false
  | .dir name children =>
    if lowerStr name = "environments" then false
    else listHasEscape rp root (cur ++ [name]) children
  | .file name =>
    if endsWithBru name then relEscapes (relSegs root (rp (cur ++ [name])))
    else false

def listHasEscape (rp : PathSegs → PathSegs) (root cur : PathSegs) : List FEntry → Bool
  | [] => false
  | e :: es => entryHasEscape rp root cur e || listHasEscape rp root cur es

end

example : discoverBruFiles (fun p => p) ["r"]
    [.file "b.bru", .dir "environments" [.file "dev.bru"], .symlink "link.bru",
     .dir "auth" [.file "login.bru"], .file "notes.txt"] =
    .ok [["r", "auth", "login.bru"], ["r", "b.bru"]] := by decide

theorem bool_eq_false {b : Bool} (h : ¬ b = true) : b = false := by
  cases b with
  | false => rfl
  | true => exact absurd rfl h

mutual

theorem walkEntry_mem_check (rp : PathSegs → PathSegs) (root : PathSegs) :
    ∀ (cur : PathSegs) (e : FEntry) (l : List PathSegs),
      walkEntry rp root cur e = .ok l → ∀ p ∈ l, relEscapes (relSegs root p) = false
  | cur, .symlink n, l, h, p, hp => by
    injection h with h2
    rw [← h2] at hp
    simp at hp
  | cur, .dir name children, l, h, p, hp => by
    unfold walkEntry at h
    by_cases henv : lowerStr name = "environments"
    · rw [if_pos henv] at h
      injection h with h2
      rw [← h2] at hp
      simp at hp
    · rw [if_neg henv] at h
      exact walkList_mem_check rp root (cur ++ [name]) children l h p hp
  | cur, .file name, l, h, p, hp => by
    unfold walkEntry at h
    by_cases hbru : endsWithBru name = true
    · rw [if_pos hbru] at h
      by_cases hesc : relEscapes (relSegs root (rp (cur ++ [name]))) = true
      · rw [if_pos hesc] at h
        exact Except.noConfusion h
      · rw [if_neg hesc] at h
        injection h with h2
        rw [← h2] at hp
        have hpe : p = rp (cur ++ [name]) := by simpa using hp
        rw [hpe]
        exact bool_eq_false hesc
    · rw [if_neg hbru] at h
      injection h with h2
      rw [← h2] at hp
      simp at hp

theorem walkList_mem_check (rp : PathSegs → PathSegs) (root : PathSegs) :
    ∀ (cur : PathSegs) (es : List FEntry) (l : List PathSegs),
      walkList rp root cur es = .ok l → ∀ p ∈ l, relEscapes (relSegs root p) = false
  | cur, [], l, h, p, hp => by
    injection h with h2
    rw [← h2] at hp
    simp at hp
  | cur, e :: es, l, h, p, hp => by
    unfold walkList at h
    cases he : walkEntry rp root cur e with
    | error err => rw [he] at h; exact Except.noConfusion h
    | ok xs =>
      rw [he] at h
      cases hes : walkList rp root cur es with
      | error err => rw [hes] at h; exact Except.noConfusion h
      | ok ys =>
        rw [hes] at h
        injection h with h2
        rw [← h2] at hp
        rcases List.mem_append.mp hp with hp1 | hp1
        · exact walkEntry_mem_check rp root cur e xs he p hp1
        · exact walkList_mem_check rp root cur es ys hes p hp1

end

mutual

theorem walkEntry_id_shape (root : PathSegs) :
    ∀ (cur : PathSegs) (e : FEntry) (l : List PathSegs),
      walkEntry (fun q => q) root cur e = .ok l →
      ∀ p ∈ l, ∃ ds fname, p = cur ++ ds ++ [fname] ∧
        (∀ d ∈ ds, lowerStr d ≠ "environments") ∧ endsWithBru fname = true
  | cur, .symlink n, l, h, p, hp => by
    injection h with h2
    rw [← h2] at hp
    simp at hp
  | cur, .dir name children, l, h, p, hp => by
    unfold walkEntry at h
    by_cases henv : lowerStr name = "environments"
    · rw [if_pos henv] at h
      injection h with h2
      rw [← h2] at hp
      simp at hp
    · rw [if_neg henv] at h
      obtain ⟨ds, fname, hpe, hds, hbru⟩ :=
        walkList_id_shape root (cur ++ [name]) children l h p hp
      refine ⟨name :: ds, fname, ?_, ?_, hbru⟩
      · rw [hpe]
        simp
      · intro d hd
        rcases List.mem_cons.mp hd with hd1 | hd1
        · rw [hd1]
          exact henv
        · exact hds d hd1
  | cur, .file name, l, h, p, hp => by
    unfold walkEntry at h
    by_cases hbru : endsWithBru name = true
    · rw [if_pos hbru] at h
      by_cases hesc : relEscapes (relSegs root (cur ++ [name])) = true
      · rw [if_pos hesc] at h
        exact Except.noConfusion h
      · rw [if_neg hesc] at h
        injection h with h2
        rw [← h2] at hp
        have hpe : p = cur ++ [name] := by simpa using hp
        exact ⟨[], name, by rw [hpe]; simp, by intro d hd; simp at hd, hbru⟩
    · rw [if_neg hbru] at h
      injection h with h2
      rw [← h2] at hp
      simp at hp

theorem walkList_id_shape (root : PathSegs) :
    ∀ (cur : PathSegs) (es : List FEntry) (l : List PathSegs),
      walkList (fun q => q) root cur es = .ok l →
      ∀ p ∈ l, ∃ ds fname, p = cur ++ ds ++ [fname] ∧
        (∀ d ∈ ds, lowerStr d ≠ "environments") ∧ endsWithBru fname = true
  | cur, [], l, h, p, hp => by
    injection h with h2
    rw [← h2] at hp
    simp at hp
  | cur, e :: es, l, h, p, hp => by
    unfold walkList at h
    cases he : walkEntry (fun q => q) root cur e with
    | error err => rw [he] at h; exact Except.noConfusion h
    | ok xs =>
      rw [he] at h
      cases hes : walkList (fun q => q) root cur es with
      | error err => rw [hes] at h; exact Except.noConfusion h
      | ok ys =>
        rw [hes] at h
        injection h with h2
        rw [← h2] at hp
        rcases List.mem_append.mp hp with hp1 | hp1
        · exact walkEntry_id_shape root cur e xs he p hp1
        · exact walkList_id_shape root cur es ys hes p hp1

end

mutual

theorem walkEntry_no_escape (rp : PathSegs → PathSegs) (root : PathSegs) :
    ∀ (cur : PathSegs) (e : FEntry) (l : List PathSegs),
      walkEntry rp root cur e = .ok l → entryHasEscape rp root cur e = false
  | cur, .symlink n, l, h => by
    rfl
  | cur, .dir name children, l, h => by
    unfold walkEntry at h
    unfold entryHasEscape
    by_cases henv : lowerStr name = "environments"
    · rw [if_pos henv]
    · rw [if_neg henv] at h ⊢
      exact walkList_no_escape rp root (cur ++ [name]) children l h
  | cur, .file name, l, h => by
    unfold walkEntry at h
    unfold entryHasEscape
    by_cases hbru : endsWithBru name = true
    · rw [if_pos hbru] at h ⊢
      by_cases hesc : relEscapes (relSegs root (rp (cur ++ [name]))) = true
      · rw [if_pos hesc] at h
        exact Except.noConfusion h
      · exact bool_eq_false hesc
    · rw [if_neg hbru]

theorem walkList_no_escape (rp : PathSegs → PathSegs) (root : PathSegs) :
    ∀ (cur : PathSegs) (es : List FEntry) (l : List PathSegs),
      walkList rp root cur es = .ok l → listHasEscape rp root cur es = false
  | cur, [], l, h => by rfl
  | cur, e :: es, l, h => by
    unfold walkList at h
    unfold listHasEscape
    cases he : walkEntry rp root cur e with
    | error err => rw [he] at h; exact Except.noConfusion h
    | ok xs =>
      rw [he] at h
      cases hes : walkList rp root cur es with
      | error err => rw [hes] at h; exact Except.noConfusion h
      | ok ys =>
        rw [walkEntry_no_escape rp root cur e xs he,
          walkList_no_escape rp root cur es ys hes]
        rfl

end

mutual

theorem walkEntry_prune (rp : PathSegs → PathSegs) (root : PathSegs) :
    ∀ (cur : PathSegs) (e : FEntry),
      (pruneEntry e = none → walkEntry rp root cur e = .ok []) ∧
      (∀ e2, pruneEntry e = some e2 →
        walkEntry rp root cur e2 = walkEntry rp root cur e)
  | cur, .symlink n => by
    constructor
    · intro _
      rfl
    · intro e2 h2
      exact Option.noConfusion h2
  | cur, .file n => by
    constructor
    · intro h2
      exact Option.noConfusion h2
    · intro e2 h2
      injection h2 with h3
      rw [← h3]
  | cur, .dir name children => by
    constructor
    · intro h2
      exact Option.noConfusion h2
    · intro e2 h2
      injection h2 with h3
      rw [← h3]
      show walkEntry rp root cur (.dir name (pruneList children)) =
        walkEntry rp root cur (.dir name children)
      unfold walkEntry
      by_cases henv : lowerStr name = "environments"
      · rw [if_pos henv, if_pos henv]
      · rw [if_neg henv, if_neg henv]
        exact walkList_prune rp root (cur ++ [name]) children

theorem walkList_prune (rp : PathSegs → PathSegs) (root : PathSegs) :
    ∀ (cur : PathSegs) (es : List FEntry),
      walkList rp root cur (pruneList es) = walkList rp root cur es
  | cur, [] => by rfl
  | cur, e :: es => by
    show walkList rp root cur (match pruneEntry e with
      | none => pruneList es
      | some e2 => e2 :: pruneList es) = walkList rp root cur (e :: es)
    cases hpe : pruneEntry e with
    | none =>
      have he : walkEntry rp root cur e = .ok [] :=
        (walkEntry_prune rp root cur e).1 hpe
      have hr : walkList rp root cur (e :: es) = walkList rp root cur es := by
        show (match walkEntry rp root cur e with
          | .error err => .error err
          | .ok xs =>
            match walkList rp root cur es with
            | .error err => .error err
            | .ok ys => .ok (xs ++ ys)) = walkList rp root cur es
        rw [he]
        cases hes : walkList rp root cur es with
        | error err => rfl
        | ok ys => simp
      rw [walkList_prune rp root cur es, hr]
    | some e2 =>
      have he : walkEntry rp root cur e2 = walkEntry rp root cur e :=
        (walkEntry_prune rp root cur e).2 e2 hpe
      show (match walkEntry rp root cur e2 with
        | .error err => .error err
        | .ok xs =>
          match walkList rp root cur (pruneList es) with
          | .error err => .error err
          | .ok ys => .ok (xs ++ ys)) = walkList rp root cur (e :: es)
      rw [he, walkList_prune rp root cur es]
      rfl

end

/-- Locale-independent lexicographic (code point) comparison of strings: the
order the specification promises for the discovery output. -/
def codepointLe (a b : String) : Bool :=
  lexLeN (a.data.map Char.toNat) (b.data.map Char.toNat)

/-- C1 (amended): for every file tree, a successful discovery returns only
canonical-path descendants of the root; with the identity canonical-path
function the output is sorted by the modelled localeCompare collation of the
POSIX relative path (the locale-sensitive collation the source uses, not
locale-independent code-point order), contains only .bru files reached
outside every environments directory; a tree in which a reachable .bru file
escapes the root can never return successfully; and symbolic links never
contribute: pruning them leaves the result unchanged. -/
theorem discoverBruFiles_spec :
    (∀ (rp : PathSegs → PathSegs) (rootReal : PathSegs) (tree : List FEntry)
        (l : List PathSegs),
      discoverBruFiles rp rootReal tree = .ok l →
      ∀ p ∈ l, relEscapes (relSegs rootReal p) = false ∧
        ∃ rel, p = rootReal ++ rel ∧ rel ≠ []) ∧
    (∀ (rootReal : PathSegs) (tree : List FEntry) (l : List PathSegs),
      discoverBruFiles (fun q => q) rootReal tree = .ok l →
      List.Sorted (fun a b =>
        locLe (joinSlash (relSegs rootReal a)) (joinSlash (relSegs rootReal b))) l ∧
      ∀ p ∈ l, ∃ ds fname, p = rootReal ++ ds ++ [fname] ∧
        (∀ d ∈ ds, lowerStr d ≠ "environments") ∧ endsWithBru fname = true) ∧
    (∀ (rp : PathSegs → PathSegs) (rootReal : PathSegs) (tree : List FEntry)
        (l : List PathSegs),
      discoverBruFiles rp rootReal tree = .ok l →
      listHasEscape rp rootReal rootReal tree = false) ∧
    (∀ (rp : PathSegs → PathSegs) (rootReal : PathSegs) (tree : List FEntry),
      discoverBruFiles rp rootReal (pruneList tree) = discoverBruFiles rp rootReal tree) := by
  refine ⟨?_, ?_, ?_, ?_⟩
  · intro rp rootReal tree l h p hp
    unfold discoverBruFiles at h
    cases hw : walkList rp rootReal rootReal tree with
    | error e => rw [hw] at h; exact Except.noConfusion h
    | ok results =>
      rw [hw] at h
      injection h with h2
      rw [← h2] at hp
      rw [List.mem_insertionSort] at hp
      have hchk := walkList_mem_check rp rootReal rootReal tree results hw p hp
      exact ⟨hchk, relSegs_nonescape rootReal p hchk |>.imp
        (fun rel hrel => ⟨hrel.1, hrel.2.1⟩)⟩
  · intro rootReal tree l h
    unfold discoverBruFiles at h
    cases hw : walkList (fun q => q) rootReal rootReal tree with
    | error e => rw [hw] at h; exact Except.noConfusion h
    | ok results =>
      rw [hw] at h
      injection h with h2
      constructor
      · rw [← h2]
        haveI : IsTotal PathSegs (fun a b =>
            locLe (joinSlash (relSegs rootReal a)) (joinSlash (relSegs rootReal b))) :=
          ⟨fun a b => lexLeN_total ..⟩
        haveI : IsTrans PathSegs (fun a b =>
            locLe (joinSlash (relSegs rootReal a)) (joinSlash (relSegs rootReal b))) :=
          ⟨fun a b c hab hbc => lexLeN_trans _ _ _ hab hbc⟩
        exact List.sorted_insertionSort _ results
      · intro p hp
        rw [← h2] at hp
        rw [List.mem_insertionSort] at hp
        exact walkList_id_shape rootReal rootReal tree results hw p hp
  · intro rp rootReal tree l h
    unfold discoverBruFiles at h
    cases hw : walkList rp rootReal rootReal tree with
    | error e => rw [hw] at h; exact Except.noConfusion h
    | ok results =>
      exact walkList_no_escape rp rootReal rootReal tree results hw
  · intro rp rootReal tree
    unfold discoverBruFiles
    rw [walkList_prune rp rootReal rootReal tree]

/-- C1 counterexample: on a tree holding B.bru and a.bru the source orders
a.bru before B.bru (localeCompare collation), which is not sorted under the
locale-independent code-point comparison the claim states: code-point order
puts B.bru (0x42) strictly before a.bru (0x61). -/
theorem discoverBruFiles_not_codepoint_sorted :
    discoverBruFiles (fun q => q) ["r"] [.file "B.bru", .file "a.bru"] =
      .ok [["r", "a.bru"], ["r", "B.bru"]] ∧
    joinSlash (relSegs ["r"] ["r", "a.bru"]) = "a.bru" ∧
    joinSlash (relSegs ["r"] ["r", "B.bru"]) = "B.bru" ∧
    codepointLe "a.bru" "B.bru" = false ∧
    codepointLe "B.bru" "a.bru" = true := by
  refine ⟨by decide, by decide, by decide, by decide, by decide⟩

/-- Witness for the C1 theorem: the sortedness conjunct evaluated on a
concrete two-file tree. -/
theorem discoverBruFiles_spec_witness :
    List.Sorted (fun a b =>
        locLe (joinSlash (relSegs ["r"] a)) (joinSlash (relSegs ["r"] b)))
      [["r", "a.bru"], ["r", "b.bru"]] :=
  (discoverBruFiles_spec.2.1 ["r"] [.file "b.bru", .file "a.bru"]
    [["r", "a.bru"], ["r", "b.bru"]] (by decide)).1

/-! ## The runner (runner.ts)

### UTF-8 byte model for the body cap

Buffer.byteLength and Buffer.subarray(0, n).toString are modelled over the
UTF-8 byte list of the body: taking exactly n bytes and decoding them with
the WHATWG replacement behaviour, under which a trailing incomplete
multi-byte sequence decodes to U+FFFD. -/

def utf8EncodeChar (c : Char) : List Nat :=
  if c.toNat < 0x80 then [c.toNat]
  else if c.toNat < 0x800 then [0xC0 + c.toNat / 64, 0x80 + c.toNat % 64]
  else if c.toNat < 0x10000 then
    [0xE0 + c.toNat / 4096, 0x80 + (c.toNat / 64) % 64, 0x80 + c.toNat % 64]
  else
    [0xF0 + c.toNat / 262144, 0x80 + (c.toNat / 4096) % 64,
     0x80 + (c.toNat / 64) % 64, 0x80 + c.toNat % 64]

def utf8Encode (s : String) : List Nat := (s.data.map utf8EncodeChar).flatten

def replacementChar : Char := Char.ofNat 0xFFFD

def isCont (b : Nat) : Bool := decide (0x80 ≤ b) && decide (b ≤ 0xBF)

/-- The admissible second byte after a three-byte leader (surrogates and
overlong encodings are invalid). -/
def cont2ok (b b2 : Nat) : Bool :=
  if b = 0xE0 then decide (0xA0 ≤ b2) && decide (b2 ≤ 0xBF)
  else if b = 0xED then decide (0x80 ≤ b2) && decide (b2 ≤ 0x9F)
  else isCont b2

/-- The admissible second byte after a four-byte leader. -/
def cont3ok (b b2 : Nat) : Bool :=
  if b = 0xF0 then decide (0x90 ≤ b2) && decide (b2 ≤ 0xBF)
  else if b = 0xF4 then decide (0x80 ≤ b2) && decide (b2 ≤ 0x8F)
  else isCont b2

/-- WHATWG UTF-8 decoding with replacement: an invalid or incomplete
sequence contributes U+FFFD and decoding restarts at the offending byte. -/
def decodeUtf8Replace : List Nat → List Char
  | [] => []
  | b :: bs =>
    if b < 0x80 then Char.ofNat b :: decodeUtf8Replace bs
    else if 0xC2 ≤ b ∧ b ≤ 0xDF then
      match bs with
      | b2 :: rest =>
        if isCont b2 then
          Char.ofNat ((b - 0xC0) * 64 + (b2 - 0x80)) :: decodeUtf8Replace rest
        else replacementChar :: decodeUtf8Replace (b2 :: rest)
      | [] => [replacementChar]
    else if 0xE0 ≤ b ∧ b ≤ 0xEF then
      match bs with
      | b2 :: bs2 =>
        if cont2ok b b2 then
          match bs2 with
          | b3 :: rest =>
            if isCont b3 then
              Char.ofNat ((b - 0xE0) * 4096 + (b2 - 0x80) * 64 + (b3 - 0x80)) ::
                decodeUtf8Replace rest
            else replacementChar :: decodeUtf8Replace (b3 :: rest)
          | [] => [replacementChar]
        else replacementChar :: decodeUtf8Replace (b2 :: bs2)
      | [] => [replacementChar]
    else if 0xF0 ≤ b ∧ b ≤ 0xF4 then
      match bs with
      | b2 :: bs2 =>
        if cont3ok b b2 then
          match bs2 with
          | b3 :: bs3 =>
            if isCont b3 then
              match bs3 with
              | b4 :: rest =>
                if isCont b4 then
                  Char.ofNat ((b - 0xF0) * 262144 + (b2 - 0x80) * 4096 +
                      (b3 - 0x80) * 64 + (b4 - 0x80)) :: decodeUtf8Replace rest
                else replacementChar :: decodeUtf8Replace (b4 :: rest)
              | [] => [replacementChar]
            else replacementChar :: decodeUtf8Replace (b3 :: bs3)
          | [] => [replacementChar]
        else replacementChar :: decodeUtf8Replace (b2 :: bs2)
      | [] => [replacementChar]
    else replacementChar :: decodeUtf8Replace bs

example : utf8Encode "€" = [0xE2, 0x82, 0xAC] := by decide
example : decodeUtf8Replace [0xE2, 0x82, 0xAC] = ['€'] := by decide
example : decodeUtf8Replace [0xE2, 0x82] = ['�'] := by decide
example : decodeUtf8Replace [0xE2, 0x82, 0xAC, 0xE2] = ['€', '�'] := by decide

/-! ### Round trip of encoding and replacement decoding -/

theorem decode_cons_ascii (b : Nat) (bs : List Nat) (h : b < 0x80) :
    decodeUtf8Replace (b :: bs) = Char.ofNat b :: decodeUtf8Replace bs := by
  nth_rewrite 1 [decodeUtf8Replace.eq_def]
  dsimp only
  rw [if_pos h]

theorem decode_cons_two (b b2 : Nat) (bs : List Nat)
    (h1 : 0xC2 ≤ b ∧ b ≤ 0xDF) (h2 : isCont b2 = true) :
    decodeUtf8Replace (b :: b2 :: bs) =
      Char.ofNat ((b - 0xC0) * 64 + (b2 - 0x80)) :: decodeUtf8Replace bs := by
  nth_rewrite 1 [decodeUtf8Replace.eq_def]
  dsimp only
  rw [if_neg (by omega), if_pos h1, if_pos h2]

theorem decode_cons_three (b b2 b3 : Nat) (bs : List Nat)
    (h1 : 0xE0 ≤ b ∧ b ≤ 0xEF) (h2 : cont2ok b b2 = true) (h3 : isCont b3 = true) :
    decodeUtf8Replace (b :: b2 :: b3 :: bs) =
      Char.ofNat ((b - 0xE0) * 4096 + (b2 - 0x80) * 64 + (b3 - 0x80)) ::
        decodeUtf8Replace bs := by
  nth_rewrite 1 [decodeUtf8Replace.eq_def]
  dsimp only
  rw [if_neg (by omega), if_neg (by omega), if_pos h1, if_pos h2, if_pos h3]

theorem decode_cons_four (b b2 b3 b4 : Nat) (bs : List Nat)
    (h1 : 0xF0 ≤ b ∧ b ≤ 0xF4) (h2 : cont3ok b b2 = true) (h3 : isCont b3 = true)
    (h4 : isCont b4 = true) :
    decodeUtf8Replace (b :: b2 :: b3 :: b4 :: bs) =
      Char.ofNat ((b - 0xF0) * 262144 + (b2 - 0x80) * 4096 +
        (b3 - 0x80) * 64 + (b4 - 0x80)) :: decodeUtf8Replace bs := by
  nth_rewrite 1 [decodeUtf8Replace.eq_def]
  dsimp only
  rw [if_neg (by omega), if_neg (by omega), if_neg (by omega), if_pos h1, if_pos h2,
    if_pos h3, if_pos h4]

theorem isCont_mod (x : Nat) : isCont (0x80 + x % 64) = true := by
  unfold isCont
  simp only [Bool.and_eq_true, decide_eq_true_eq]
  omega

theorem decode_encodeChar (c : Char) (bs : List Nat) :
    decodeUtf8Replace (utf8EncodeChar c ++ bs) = c :: decodeUtf8Replace bs := by
  have hvalid : c.toNat < 0xD800 ∨ (0xDFFF < c.toNat ∧ c.toNat < 0x110000) := c.valid
  have hofn : Char.ofNat c.toNat = c := Char.ofNat_toNat c
  unfold utf8EncodeChar
  by_cases h1 : c.toNat < 0x80
  · rw [if_pos h1]
    simp only [List.cons_append, List.nil_append]
    rw [decode_cons_ascii _ _ h1, hofn]
  · rw [if_neg h1]
    by_cases h2 : c.toNat < 0x800
    · rw [if_pos h2]
      simp only [List.cons_append, List.nil_append]
      rw [decode_cons_two _ _ _ (by omega) (isCont_mod _)]
      have harith : (0xC0 + c.toNat / 64 - 0xC0) * 64 + (0x80 + c.toNat % 64 - 0x80) =
          c.toNat := by omega
      rw [harith, hofn]
    · rw [if_neg h2]
      by_cases h3 : c.toNat < 0x10000
      · rw [if_pos h3]
        simp only [List.cons_append, List.nil_append]
        have hc2 : cont2ok (0xE0 + c.toNat / 4096) (0x80 + (c.toNat / 64) % 64) = true := by
          unfold cont2ok isCont
          rcases hvalid with hv | hv
          · split_ifs with he hd
            · simp only [Bool.and_eq_true, decide_eq_true_eq]
              omega
            · simp only [Bool.and_eq_true, decide_eq_true_eq]
              omega
            · simp only [Bool.and_eq_true, decide_eq_true_eq]
              omega
          · split_ifs with he hd
            · simp only [Bool.and_eq_true, decide_eq_true_eq]
              omega
            · simp only [Bool.and_eq_true, decide_eq_true_eq]
              omega
            · simp only [Bool.and_eq_true, decide_eq_true_eq]
              omega
        rw [decode_cons_three _ _ _ _ (by omega) hc2 (isCont_mod _)]
        have harith : (0xE0 + c.toNat / 4096 - 0xE0) * 4096 +
            (0x80 + (c.toNat / 64) % 64 - 0x80) * 64 + (0x80 + c.toNat % 64 - 0x80) =
            c.toNat := by omega
        rw [harith, hofn]
      · rw [if_neg h3]
        simp only [List.cons_append, List.nil_append]
        have hlt : c.toNat < 0x110000 := by
          rcases hvalid with hv | hv
          · omega
          · omega
        have hc3 : cont3ok (0xF0 + c.toNat / 262144) (0x80 + (c.toNat / 4096) % 64) =
            true := by
          unfold cont3ok isCont
          split_ifs with he hd
          · simp only [Bool.and_eq_true, decide_eq_true_eq]
            omega
          · simp only [Bool.and_eq_true, decide_eq_true_eq]
            omega
          · simp only [Bool.and_eq_true, decide_eq_true_eq]
            omega
        rw [decode_cons_four _ _ _ _ _ (by omega) hc3 (isCont_mod _) (isCont_mod _)]
        have harith : (0xF0 + c.toNat / 262144 - 0xF0) * 262144 +
            (0x80 + (c.toNat / 4096) % 64 - 0x80) * 4096 +
            (0x80 + (c.toNat / 64) % 64 - 0x80) * 64 + (0x80 + c.toNat % 64 - 0x80) =
            c.toNat := by omega
        rw [harith, hofn]

theorem decode_encode_append :
    ∀ (l : List Char) (bs : List Nat),
      decodeUtf8Replace ((l.map utf8EncodeChar).flatten ++ bs) =
        l ++ decodeUtf8Replace bs := by
  intro l
  induction l with
  | nil => intro bs; simp
  | cons c cs ih =>
    intro bs
    simp only [List.map_cons, List.flatten_cons, List.append_assoc, List.cons_append]
    rw [decode_encodeChar c, ih]

theorem utf8Encode_append (a b : String) :
    utf8Encode (a ++ b) = utf8Encode a ++ utf8Encode b := by
  unfold utf8Encode
  rw [String.data_append, List.map_append, List.flatten_append]

theorem utf8EncodeChar_ne_nil (c : Char) : utf8EncodeChar c ≠ [] := by
  unfold utf8EncodeChar
  split_ifs <;> simp

theorem utf8Encode_ne_nil (s : String) (h : s ≠ "") : utf8Encode s ≠ [] := by
  unfold utf8Encode
  cases hd : s.data with
  | nil =>
    exfalso
    apply h
    cases s
    simp_all
  | cons c cs =>
    simp only [List.map_cons, List.flatten_cons]
    intro hx
    rcases List.append_eq_nil.mp hx with ⟨h1, _⟩
    exact utf8EncodeChar_ne_nil c h1

/-! ### The report view and output formatting (runner.ts lines 200-288) -/

/-- The normalized view of one run: HTTP status (a JS number, modelled as an
exact rational), flat header mapping in insertion order, body text. -/
structure BrunoReportView where
  statusCode : ℚ
  headers : List (String × String)
  bodyText : String
deriving Repr, DecidableEq

/-- Template-literal rendering of a JS number for the status line; an
integral value prints as its decimal digits.  Shortest-round-trip formatting
of non-integral doubles is outside the model and rendered as an exact
fraction. -/
def jsNumToString (q : ℚ) : String :=
  if q.den = 1 then
    (if q.num < 0 then "-" ++ Nat.repr q.num.natAbs else Nat.repr q.num.natAbs)
  else
    (if q.num < 0 then "-" else "") ++ Nat.repr q.num.natAbs ++ "/" ++ Nat.repr q.den

def hexDigit (n : Nat) : Char :=
  if n < 10 then Char.ofNat (48 + n) else Char.ofNat (87 + n)

/-- JSON string escaping as used by JSON.stringify. -/
def jsonEscapeChar (c : Char) : List Char :=
  if c = '"' then ['\\', '"']
  else if c = '\\' then ['\\', '\\']
  else if c = '\n' then ['\\', 'n']
  else if c = '\r' then ['\\', 'r']
  else if c = '\t' then ['\\', 't']
  else if c = Char.ofNat 8 then ['\\', 'b']
  else if c = Char.ofNat 12 then ['\\', 'f']
  else if c.toNat < 0x20 then
    ['\\', 'u', '0', '0', hexDigit (c.toNat / 16), hexDigit (c.toNat % 16)]
  else [c]

def jsonQuote (s : String) : String :=
  "\"" ++ ⟨(s.data.map jsonEscapeChar).flatten⟩ ++ "\""

/-- JSON.stringify(headers, null, 2) over the flat string mapping. -/
def stringifyHeaders (hs : List (String × String)) : String :=
  match hs with
  | [] => "\x7b\x7d"
  | _ =>
    "\x7b\n" ++
      String.intercalate ",\n"
        (hs.map (fun p => "  " ++ jsonQuote p.1 ++ ": " ++ jsonQuote p.2)) ++
      "\n\x7d"

/-- The body cap of formatToolOutput: when the UTF-8 byte length exceeds the
cap, keep exactly the first cap bytes of the encoding, decode them with
replacement (Buffer.subarray followed by toString), and append the
truncation marker. -/
def truncateBody (bodyText : String) (bodyLimitBytes : Nat) : String :=
  if (utf8Encode bodyText).length > bodyLimitBytes then
    ⟨decodeUtf8Replace ((utf8Encode bodyText).take bodyLimitBytes)⟩ ++
      "\n[truncated to " ++ Nat.repr bodyLimitBytes ++ " bytes]"
  else bodyText

/-- formatToolOutput from runner.ts: the status line, the pretty-printed
header mapping and the capped body, separated by blank lines. -/
def formatToolOutput (view : BrunoReportView) (bodyLimitBytes : Nat) : String :=
  "Status: " ++ jsNumToString view.statusCode ++ "\n\nHeaders:\n" ++
    stringifyHeaders view.headers ++ "\n\nBody:\n" ++
    truncateBody view.bodyText bodyLimitBytes

example : formatToolOutput ⟨200, [("content-type", "application/json")], "ok"⟩ 65536 =
    "Status: 200\n\nHeaders:\n\x7b\n  \"content-type\": \"application/json\"\n\x7d\n\nBody:\nok" := by
  decide

/-- C5 (amended): formatToolOutput keeps exactly the first cap bytes of the
body and appends the marker naming the cap; when the cap falls on a
character boundary — written here as a split of the body whose prefix
encodes to exactly cap bytes — the body section is exactly that prefix of
the original content followed by the marker.  (When the cap splits a
multi-byte sequence, the trailing incomplete sequence decodes to U+FFFD;
see the counterexample.) -/
theorem formatToolOutput_truncates_on_boundary (view : BrunoReportView)
    (bodyLimitBytes : Nat) (pre suf : String)
    (hsplit : view.bodyText = pre ++ suf)
    (hlen : (utf8Encode pre).length = bodyLimitBytes)
    (hsuf : suf ≠ "") :
    truncateBody view.bodyText bodyLimitBytes =
      pre ++ "\n[truncated to " ++ Nat.repr bodyLimitBytes ++ " bytes]" ∧
    formatToolOutput view bodyLimitBytes =
      "Status: " ++ jsNumToString view.statusCode ++ "\n\nHeaders:\n" ++
        stringifyHeaders view.headers ++ "\n\nBody:\n" ++
        (pre ++ "\n[truncated to " ++ Nat.repr bodyLimitBytes ++ " bytes]") := by
  have henc : utf8Encode view.bodyText = utf8Encode pre ++ utf8Encode suf := by
    rw [hsplit, utf8Encode_append]
  have hpos : 0 < (utf8Encode suf).length :=
    List.length_pos.mpr (utf8Encode_ne_nil suf hsuf)
  have hgt : (utf8Encode view.bodyText).length > bodyLimitBytes := by
    rw [henc, List.length_append, hlen]
    omega
  have htake : (utf8Encode view.bodyText).take bodyLimitBytes = utf8Encode pre := by
    rw [henc, ← hlen]
    exact List.take_left ..
  have hdec : decodeUtf8Replace (utf8Encode pre) = pre.data := by
    have h0 := decode_encode_append pre.data []
    have h1 : decodeUtf8Replace ([] : List Nat) = [] := rfl
    rw [h1, List.append_nil, List.append_nil] at h0
    exact h0
  have hbody : truncateBody view.bodyText bodyLimitBytes =
      pre ++ "\n[truncated to " ++ Nat.repr bodyLimitBytes ++ " bytes]" := by
    unfold truncateBody
    rw [if_pos hgt, htake, hdec]
  refine ⟨hbody, ?_⟩
  unfold formatToolOutput
  rw [hbody]

/-- C5 counterexample: a body of two euro signs (three UTF-8 bytes each)
capped at 4 bytes.  The cap falls inside the second character, so the body
section is the first character followed by U+FFFD: its bytes are not the
first 4 bytes of the original body — the section is not exactly cap bytes
of original content truncated without incorrectly splitting a multi-byte
sequence. -/
theorem formatToolOutput_splits_multibyte :
    formatToolOutput ⟨200, [], "€€"⟩ 4 =
      "Status: 200\n\nHeaders:\n\x7b\x7d\n\nBody:\n€�\n[truncated to 4 bytes]" ∧
    truncateBody "€€" 4 = "€�" ++ "\n[truncated to 4 bytes]" ∧
    utf8Encode "€�" ≠ (utf8Encode "€€").take 4 ∧
    (utf8Encode "€�").length = 6 := by
  refine ⟨by decide, by decide, by decide, by decide⟩

/-- Witness for the C5 theorem: a 500-byte ASCII body with a 100-byte cap
yields exactly the first 100 bytes of the body followed by the marker
naming 100. -/
theorem formatToolOutput_truncates_on_boundary_witness :
    truncateBody (String.mk (List.replicate 500 'a')) 100 =
      String.mk (List.replicate 100 'a') ++ "\n[truncated to 100 bytes]" :=
  (formatToolOutput_truncates_on_boundary
    ⟨200, [], String.mk (List.replicate 500 'a')⟩ 100
    (String.mk (List.replicate 100 'a')) (String.mk (List.replicate 400 'a'))
    (by decide) (by decide) (by decide)).1

/-! ### Decoded JSON values and the JS conversions used by report parsing -/

/-- Decoded JSON values, the input shape of extractReportView.  Numbers are
exact rationals: JSON.parse yields finite doubles only. -/
inductive Jx where
  | null
  | bool (b : Bool)
  | num (q : ℚ)
  | str (s : String)
  | arr (xs : List Jx)
  | obj (fields : List (String × Jx))

/-- Property access r.f on a decoded JSON value: undefined (none) on
non-objects and missing keys.  A JSON-derived array has no named
properties, so access on arrays is undefined as well. -/
def getField : Jx → String → Option Jx
  | .obj fields, k => (fields.find? (fun p => p.1 == k)).map Prod.snd
  | _, _ => none

/-- The nullish filter of the ?? operator: null and undefined are missing. -/
def nn : Option Jx → Option Jx
  | some .null => none
  | x => x

/-- A chain a ?? b ?? ... ?? z: every element but the last is taken only
when non-nullish; the final fallback is returned as-is (it may be null). -/
def jsCoalesce : List (Option Jx) → Option Jx
  | [] => none
  | [x] => x
  | x :: rest =>
    match nn x with
    | some v => some v
    | none => jsCoalesce rest

/-- Truthy and of typeof object: satisfied by objects and arrays, not by
null, numbers, strings or booleans. -/
def isObjectLike : Jx → Bool
  | .obj _ => true
  | .arr _ => true
  | _ => false

/-! #### Number(x): the JS numeric conversion, restricted to finite results -/

def isDigitChar (c : Char) : Bool := 48 ≤ c.toNat && c.toNat ≤ 57

def digitsToNat (l : List Char) : Nat :=
  l.foldl (fun acc c => acc * 10 + (c.toNat - 48)) 0

def radixDigitVal (c : Char) : Nat :=
  if 48 ≤ c.toNat ∧ c.toNat ≤ 57 then c.toNat - 48
  else if 97 ≤ c.toNat ∧ c.toNat ≤ 102 then c.toNat - 87
  else if 65 ≤ c.toNat ∧ c.toNat ≤ 70 then c.toNat - 55
  else 99

def isRadixDigit (radix : Nat) (c : Char) : Bool := decide (radixDigitVal c < radix)

def radixToNat (radix : Nat) (l : List Char) : Nat :=
  l.foldl (fun acc c => acc * radix + radixDigitVal c) 0

/-- The exponent suffix of the decimal grammar; the whole rest must be
consumed; an absent suffix is exponent zero. -/
def parseExpPart : List Char → Option Int
  | [] => some 0
  | e :: rest =>
    if e = 'e' ∨ e = 'E' then
      match rest with
      | '+' :: ds =>
        if ds ≠ [] ∧ ds.all isDigitChar then some (digitsToNat ds) else none
      | '-' :: ds =>
        if ds ≠ [] ∧ ds.all isDigitChar then some (-(digitsToNat ds : Int)) else none
      | ds =>
        if ds ≠ [] ∧ ds.all isDigitChar then some (digitsToNat ds) else none
    else none

/-- Unsigned decimal literal as mantissa digits, fraction length and
exponent: digits with optional fraction and exponent. -/
def parseDecimalParts (l : List Char) : Option (Nat × Nat × Int) :=
  match l.dropWhile isDigitChar with
  | [] =>
    if l.takeWhile isDigitChar = [] then none
    else some (digitsToNat (l.takeWhile isDigitChar), 0, 0)
  | '.' :: rest2 =>
    if l.takeWhile isDigitChar = [] ∧ rest2.takeWhile isDigitChar = [] then none
    else
      (parseExpPart (rest2.dropWhile isDigitChar)).map (fun e =>
        (digitsToNat (l.takeWhile isDigitChar ++ rest2.takeWhile isDigitChar),
         (rest2.takeWhile isDigitChar).length, e))
  | rest1 =>
    if l.takeWhile isDigitChar = [] then none
    else (parseExpPart rest1).map (fun e => (digitsToNat (l.takeWhile isDigitChar), 0, e))

/-- The exact rational value of a parsed literal
sign * mantissa * 10 ^ (e - fracLen), built through mkRat so that it
evaluates inside the kernel. -/
def decToRat (neg : Bool) (mant fracLen : Nat) (e : Int) : ℚ :=
  let num : Int := if neg then -(mant : Int) else (mant : Int)
  if fracLen ≤ e then mkRat (num * ((10 : Nat) ^ (e - fracLen).toNat : Nat)) 1
  else mkRat num ((10 : Nat) ^ ((fracLen : Int) - e).toNat)

/-- After an explicit sign only decimal notation (or Infinity) is legal. -/
def parseUnsigned (l : List Char) : Option (Nat × Nat × Int) :=
  if l = "Infinity".data then none else parseDecimalParts l

/-- Without a sign the radix prefixes 0x, 0o and 0b are also legal. -/
def parseUnsignedPrefixed (l : List Char) : Option (Nat × Nat × Int) :=
  match l with
  | '0' :: x :: rest =>
    if x = 'x' ∨ x = 'X' then
      if rest ≠ [] ∧ rest.all (isRadixDigit 16) then some (radixToNat 16 rest, 0, 0)
      else none
    else if x = 'o' ∨ x = 'O' then
      if rest ≠ [] ∧ rest.all (isRadixDigit 8) then some (radixToNat 8 rest, 0, 0)
      else none
    else if x = 'b' ∨ x = 'B' then
      if rest ≠ [] ∧ rest.all (isRadixDigit 2) then some (radixToNat 2 rest, 0, 0)
      else none
    else parseUnsigned ('0' :: x :: rest)
  | _ => parseUnsigned l

/-- Number(string): trim, empty means zero, optional sign, then a numeric
literal; anything else (including Infinity) yields no finite value. -/
def jsStrToNum (s : String) : Option ℚ :=
  match ((s.data.dropWhile isJsWhitespace).reverse.dropWhile isJsWhitespace).reverse with
  | [] => some 0
  | '+' :: rest => (parseUnsigned rest).map (fun p => decToRat false p.1 p.2.1 p.2.2)
  | '-' :: rest => (parseUnsigned rest).map (fun p => decToRat true p.1 p.2.1 p.2.2)
  | t => (parseUnsignedPrefixed t).map (fun p => decToRat false p.1 p.2.1 p.2.2)

/-- The finite-double guard of Number.isFinite: values at or beyond the
double overflow threshold are treated as infinite.  The magnitude test
abs q < 2 ^ 1024 is phrased over the numerator and denominator so that it
evaluates by machine naturals. -/
def finiteGuard (q : ℚ) : Option ℚ :=
  if q.num.natAbs < 2 ^ 1024 * q.den then some q else none

/-- Number(x) for a possibly-undefined decoded JSON value, kept only when
Number.isFinite holds: undefined gives NaN, null gives 0, booleans 0 or 1,
strings parse by the JS numeric grammar, plain objects give NaN; arrays
convert through their joined string form, of which the single-element
cases are modelled and deeper nestings are treated as NaN. -/
def toFiniteNumber : Option Jx → Option ℚ
  | none => none
  | some .null => some 0
  | some (.bool b) => some (if b then 1 else 0)
  | some (.num q) => finiteGuard q
  | some (.str s) => (jsStrToNum s).bind finiteGuard
  | some (.arr []) => some 0
  | some (.arr [.num q]) => finiteGuard q
  | some (.arr [.str s]) => (jsStrToNum s).bind finiteGuard
  | some (.arr [.null]) => some 0
  | some (.arr _) => none
  | some (.obj _) => none

example : toFiniteNumber (some (.str "200")) = some 200 := by decide
example : toFiniteNumber (some (.str " 2.5e1 ")) = some 25 := by decide
example : toFiniteNumber (some (.str "abc")) = none := by decide
example : toFiniteNumber (some (.str "0x10")) = some 16 := by decide
example : toFiniteNumber (some (.str "Infinity")) = none := by decide
example : toFiniteNumber none = none := by decide
example : toFiniteNumber (some .null) = some 0 := by decide

/-! #### String(x) and JSON.stringify(x, null, 2) over decoded values -/

mutual

/-- String(v): the default JS string conversion for JSON-derived values. -/
def jsStringOf : Jx → String
  | .str s => s
  | .bool b => cond b "true" "false"
  | .num q => jsNumToString q
  | .null => "null"
  | .obj _ => "[object Object]"
  | .arr xs => String.intercalate "," (jsStringOfList xs)

/-- Array.prototype.toString joins element strings; null (and undefined)
elements become empty strings. -/
def jsStringOfList : List Jx → List String
  | [] => []
  | .null :: xs => "" :: jsStringOfList xs
  | x :: xs => jsStringOf x :: jsStringOfList xs

end

def spacesStr (n : Nat) : String := ⟨List.replicate n ' '⟩

mutual

/-- JSON.stringify(v, null, 2) at a given indentation depth. -/
def prettyJsonAux : Nat → Jx → String
  | _, .null => "null"
  | _, .bool b => cond b "true" "false"
  | _, .num q => jsNumToString q
  | _, .str s => jsonQuote s
  | ind, .arr xs =>
    match xs with
    | [] => "[]"
    | _ =>
      "[\n" ++ String.intercalate ",\n" (prettyJsonList (ind + 2) xs) ++
        "\n" ++ spacesStr ind ++ "]"
  | ind, .obj fs =>
    match fs with
    | [] => "\x7b\x7d"
    | _ =>
      "\x7b\n" ++ String.intercalate ",\n" (prettyJsonFields (ind + 2) fs) ++
        "\n" ++ spacesStr ind ++ "\x7d"

def prettyJsonList : Nat → List Jx → List String
  | _, [] => []
  | ind, x :: xs => (spacesStr ind ++ prettyJsonAux ind x) :: prettyJsonList ind xs

def prettyJsonFields : Nat → List (String × Jx) → List String
  | _, [] => []
  | ind, f :: fs =>
    (spacesStr ind ++ jsonQuote f.1 ++ ": " ++ prettyJsonAux ind f.2) ::
      prettyJsonFields ind fs

end

def prettyJson (v : Jx) : String := prettyJsonAux 0 v

/-! #### toHeaders and toBodyText (runner.ts lines 206-248) -/

/-- Assignment out[k] = v on a JS object: a repeated key keeps its original
position and takes the new value. -/
def objAssign (acc : List (String × String)) (k v : String) : List (String × String) :=
  if acc.any (fun p => p.1 == k) then
    acc.map (fun p => if p.1 == k then (k, v) else p)
  else acc ++ [(k, v)]

/-- toHeaders from runner.ts: an array of name and value entries or a plain
mapping becomes a flat string-to-string mapping; anything else is empty;
missing values become empty strings. -/
def toHeaders : Jx → List (String × String)
  | .arr items =>
    items.foldl (fun acc item =>
      match item with
      | .obj fields =>
        (match getField (.obj fields) "name" with
        | some (.str name) =>
          (match nn (getField (.obj fields) "value") with
          | some v => objAssign acc name (jsStringOf v)
          | none => objAssign acc name "")
        | _ => acc)
      | _ => acc) []
  | .obj fields =>
    fields.foldl (fun acc p =>
      match nn (some p.2) with
      | some v => objAssign acc p.1 (jsStringOf v)
      | none => objAssign acc p.1 "") []
  | _ => []

def toHeadersOpt : Option Jx → List (String × String)
  | some v => toHeaders v
  | none => []

/-- toBodyText from runner.ts: strings pass through, null and undefined
become empty, numbers and booleans stringify, other values pretty-print.
For JSON-derived values JSON.stringify cannot throw, so the best-effort
catch branch of the source is unreachable here. -/
def toBodyText : Option Jx → String
  | some (.str s) => s
  | none => ""
  | some .null => ""
  | some (.num q) => jsNumToString q
  | some (.bool b) => cond b "true" "false"
  | some (.arr xs) => prettyJson (.arr xs)
  | some (.obj fs) => prettyJson (.obj fs)

/-! #### extractReportView (runner.ts lines 250-276) -/

/-- The record r of extractReportView: the report itself or, for an array,
its first element, with a nullish root replaced by an empty object. -/
def rootRecordOf (report : Jx) : Jx :=
  match nn (match report with | .arr xs => xs.head? | x => some x) with
  | some v => v
  | none => .obj []

/-- The firstObject local: the first element of r.results when that is a
non-empty array and the element is object-like, else an empty object. -/
def resultsFirstObjectOf (report : Jx) : Jx :=
  match (match getField (rootRecordOf report) "results" with
         | some (.arr xs) => some xs
         | _ => none) with
  | some (x :: _) => if isObjectLike x then x else .obj []
  | _ => .obj []

/-- The response local: firstObject.response when object-like. -/
def responseOf (report : Jx) : Option Jx :=
  match getField (resultsFirstObjectOf report) "response" with
  | some v => if isObjectLike v then some v else none
  | none => none

/-- The statusSource local: the response sub-object if present, else the
first result object. -/
def statusSourceOf (report : Jx) : Jx :=
  (responseOf report).getD (resultsFirstObjectOf report)

/-- The status candidate the source selects: statusCode then status on the
status source, then on the top-level record, first non-nullish wins, the
final fallback unguarded. -/
def statusCandidateOf (report : Jx) : Option Jx :=
  jsCoalesce [getField (statusSourceOf report) "statusCode",
    getField (statusSourceOf report) "status",
    getField (rootRecordOf report) "statusCode",
    getField (rootRecordOf report) "status"]

def headersOf (report : Jx) : List (String × String) :=
  toHeadersOpt (jsCoalesce
    [(responseOf report).bind (fun resp => getField resp "headers"),
     getField (resultsFirstObjectOf report) "headers",
     getField (rootRecordOf report) "headers"])

def bodyTextOf (report : Jx) : String :=
  toBodyText (jsCoalesce
    [(responseOf report).bind (fun resp => getField resp "body"),
     (responseOf report).bind (fun resp => getField resp "data"),
     getField (resultsFirstObjectOf report) "body",
     getField (resultsFirstObjectOf report) "data",
     getField (rootRecordOf report) "body",
     getField (rootRecordOf report) "data"])

/-- extractReportView from runner.ts, assembled from the locals above. -/
def extractReportView (report : Jx) : Except AppError BrunoReportView :=
  match toFiniteNumber (statusCandidateOf report) with
  | none => .error ⟨"E_REPORT", "Unable to parse response status from Bruno JSON report."⟩
  | some q => .ok ⟨q, headersOf report, bodyTextOf report⟩

example : extractReportView (Jx.obj [("results", Jx.arr [Jx.obj [("response", Jx.obj
    [("statusCode", Jx.num 200),
     ("headers", Jx.obj [("content-type", Jx.str "application/json")]),
     ("body", Jx.str "\x7b\"ok\":true\x7d")])]])]) =
    .ok ⟨200, [("content-type", "application/json")], "\x7b\"ok\":true\x7d"⟩ := by decide

example : extractReportView (Jx.obj [("status", Jx.str "403"), ("body", Jx.num 5)]) =
    .ok ⟨403, [], "5"⟩ := by decide

/-- C7 (amended): extractReportView tolerates both report shapes — an array
is read through its first element, so a one-or-more-element array whose
first element is not itself an array parses exactly as that element does —
and resolves the status through the source fallback chain (the response
sub-object if present, else the first result object, then the top-level
record, first non-nullish statusCode or status candidate wins, converted by
the JS ToNumber conversion).  It fails with the report-parsing error
exactly when that selected candidate does not convert to a finite number,
and a success always carries the converted finite status: no call reports
an undefined status. -/
theorem extractReportView_status_spec :
    (∀ report : Jx,
      (∀ e, extractReportView report = .error e ↔
        (toFiniteNumber (statusCandidateOf report) = none ∧
         e = ⟨"E_REPORT", "Unable to parse response status from Bruno JSON report."⟩)) ∧
      (∀ q, toFiniteNumber (statusCandidateOf report) = some q →
        extractReportView report = .ok ⟨q, headersOf report, bodyTextOf report⟩) ∧
      (∀ v, extractReportView report = .ok v →
        toFiniteNumber (statusCandidateOf report) = some v.statusCode)) ∧
    (∀ (x : Jx) (xs : List Jx),
      (match x with | .arr _ => False | _ => True) →
      extractReportView (.arr (x :: xs)) = extractReportView x) := by
  constructor
  · intro report
    refine ⟨?_, ?_, ?_⟩
    · intro e
      unfold extractReportView
      cases hc : toFiniteNumber (statusCandidateOf report) with
      | none =>
        constructor
        · intro h
          injection h with h2
          exact ⟨rfl, h2.symm⟩
        · intro ⟨_, h2⟩
          rw [h2]
      | some q =>
        constructor
        · intro h
          exact Except.noConfusion h
        · intro ⟨h1, _⟩
          exact Option.noConfusion h1
    · intro q hq
      unfold extractReportView
      rw [hq]
    · intro v hv
      unfold extractReportView at hv
      cases hc : toFiniteNumber (statusCandidateOf report) with
      | none => rw [hc] at hv; exact Except.noConfusion hv
      | some q =>
        rw [hc] at hv
        injection hv with h2
        rw [← h2]
  · intro x xs hx
    have hroot : rootRecordOf (.arr (x :: xs)) = rootRecordOf x := by
      cases x with
      | null => rfl
      | bool b => rfl
      | num q => rfl
      | str s => rfl
      | obj fs => rfl
      | arr ys => exact absurd hx (by simp)
    unfold extractReportView statusCandidateOf headersOf bodyTextOf statusSourceOf
      responseOf resultsFirstObjectOf
    rw [hroot]

/-- C7 counterexample: the first result object itself holds a finite
statusCode 200, but because an (empty) response sub-object is present the
source never consults the first result object and fails with the
report-parsing error — the claim that the status resolves from a
status-code-like field found in the response sub-object, the first result
object, or the top level, failing exactly when none resolves finite, is
false. -/
theorem extractReportView_misses_first_result_status :
    extractReportView (Jx.obj [("results", Jx.arr [Jx.obj
        [("response", Jx.obj []), ("statusCode", Jx.num 200)]])]) =
      .error ⟨"E_REPORT", "Unable to parse response status from Bruno JSON report."⟩ ∧
    getField (Jx.obj [("response", Jx.obj []), ("statusCode", Jx.num 200)]) "statusCode" =
      some (Jx.num 200) ∧
    toFiniteNumber (some (Jx.num 200)) = some 200 := by
  refine ⟨by decide, rfl, by decide⟩

/-- Witness for the C7 theorem: the array and single-object shapes agree on
a concrete report. -/
theorem extractReportView_status_spec_witness :
    extractReportView (.arr [Jx.obj [("statusCode", Jx.num 200)]]) =
      extractReportView (Jx.obj [("statusCode", Jx.num 200)]) :=
  extractReportView_status_spec.2 (Jx.obj [("statusCode", Jx.num 200)]) [] trivial

/-! ## Variable pass-through (runner.ts lines 290-329) -/

/-- An ASCII single-quote character, as a string. -/
def sq : String := String.singleton (Char.ofNat 39)

/-- The entry loop of buildVarsPassThrough from runner.ts: each key must be
non-empty, must not contain the equals sign, and must sanitize to a non-empty
stem; the variable is then exposed under MCP_VAR_ plus the sanitized key in
the environment map and as a --env-var key=value runner argument, a repeated
normalized environment name being a fatal collision. -/
def varsLoop : List (String × String) → List (String × String) → List String →
    List String → Except AppError (List (String × String) × List String)
  | [], envMap, _, envVarArgs => .ok (envMap, envVarArgs)
  | (key, value) :: rest, envMap, seen, envVarArgs =>
    if key.data.isEmpty then .error ⟨"E_VARS", "Vars key cannot be empty."⟩
    else if key.data.contains '=' then
      .error ⟨"E_VARS",
        "Invalid vars key (must not include " ++ sq ++ "=" ++ sq ++ "): " ++ key⟩
    else if (sanitizeEnvVarName key).data.isEmpty then
      .error ⟨"E_VARS", "Invalid vars key: " ++ key⟩
    else if seen.contains ("MCP_VAR_" ++ sanitizeEnvVarName key) then
      .error ⟨"E_VARS", "Vars key collision after normalization: " ++ key⟩
    else
      varsLoop rest (envMap ++ [("MCP_VAR_" ++ sanitizeEnvVarName key, value)])
        (seen ++ ["MCP_VAR_" ++ sanitizeEnvVarName key])
        (envVarArgs ++ ["--env-var", key ++ "=" ++ value])

/-- buildVarsPassThrough from runner.ts, over an ordered entry list standing
for Object.entries of the vars record. -/
def buildVarsPassThrough (vars : Option (List (String × String))) :
    Except AppError (List (String × String) × List String) :=
  match vars with
  | none => .ok ([], [])
  | some entries => varsLoop entries [] [] []

/-- A key passing the three per-key checks of buildVarsPassThrough. -/
def goodVarsKey (key : String) : Bool :=
  (!key.data.isEmpty) && (!key.data.contains '=') &&
    (!(sanitizeEnvVarName key).data.isEmpty)

/-- The process-environment name a vars key normalizes to. -/
def envKeyOf (key : String) : String := "MCP_VAR_" ++ sanitizeEnvVarName key

theorem varsLoop_ok :
    ∀ (entries : List (String × String)) (envMap : List (String × String))
      (seen : List String) (envVarArgs : List String),
      (∀ p ∈ entries, goodVarsKey p.1 = true) →
      (seen ++ entries.map (fun p => envKeyOf p.1)).Nodup →
      varsLoop entries envMap seen envVarArgs =
        .ok (envMap ++ entries.map (fun p => (envKeyOf p.1, p.2)),
          envVarArgs ++ (entries.map (fun p => ["--env-var", p.1 ++ "=" ++ p.2])).flatten) := by
  intro entries
  induction entries with
  | nil => intro envMap seen envVarArgs _ _; simp [varsLoop]
  | cons p rest ih =>
    intro envMap seen envVarArgs hgood hnd
    obtain ⟨key, value⟩ := p
    have hg : goodVarsKey key = true := hgood (key, value) (List.mem_cons_self _ _)
    have h1 : ¬ key.data.isEmpty = true := by
      intro h; rw [goodVarsKey, h] at hg; simp at hg
    have h2 : ¬ key.data.contains '=' = true := by
      intro h; rw [goodVarsKey, h] at hg; simp at hg
    have h3 : ¬ (sanitizeEnvVarName key).data.isEmpty = true := by
      intro h; rw [goodVarsKey, h] at hg; simp at hg
    have hnotin : ("MCP_VAR_" ++ sanitizeEnvVarName key) ∉ seen := by
      intro hmem
      have hd := (List.nodup_append.mp hnd).2.2
      exact hd hmem (by simp [envKeyOf])
    have h4 : ¬ seen.contains ("MCP_VAR_" ++ sanitizeEnvVarName key) = true := by
      intro h; exact hnotin (List.mem_of_elem_eq_true h)
    have hnd2 : ((seen ++ [envKeyOf key]) ++
        rest.map (fun p => envKeyOf p.1)).Nodup := by
      rw [List.append_assoc]
      exact hnd
    have hr := ih (envMap ++ [("MCP_VAR_" ++ sanitizeEnvVarName key, value)])
      (seen ++ ["MCP_VAR_" ++ sanitizeEnvVarName key])
      (envVarArgs ++ ["--env-var", key ++ "=" ++ value])
      (fun q hq => hgood q (List.mem_cons_of_mem _ hq)) hnd2
    simp only [varsLoop]
    rw [if_neg h1, if_neg h2, if_neg h3, if_neg h4, hr]
    simp [envKeyOf, List.append_assoc]

theorem varsLoop_bad :
    ∀ (entries : List (String × String)) (envMap : List (String × String))
      (seen : List String) (envVarArgs : List String),
      seen.Nodup →
      ((∃ p ∈ entries, goodVarsKey p.1 = false) ∨
        ¬ (seen ++ entries.map (fun p => envKeyOf p.1)).Nodup) →
      ∃ m, varsLoop entries envMap seen envVarArgs = .error ⟨"E_VARS", m⟩ := by
  intro entries
  induction entries with
  | nil =>
    intro envMap seen envVarArgs hnd h
    rcases h with ⟨p, hp, _⟩ | h
    · exact absurd hp (List.not_mem_nil p)
    · exact absurd (by simpa using hnd) h
  | cons p rest ih =>
    intro envMap seen envVarArgs hnd h
    obtain ⟨key, value⟩ := p
    by_cases h1 : key.data.isEmpty = true
    · exact ⟨"Vars key cannot be empty.", by simp only [varsLoop]; rw [if_pos h1]⟩
    · by_cases h2 : key.data.contains '=' = true
      · exact ⟨"Invalid vars key (must not include " ++ sq ++ "=" ++ sq ++ "): " ++ key,
          by simp only [varsLoop]; rw [if_neg h1, if_pos h2]⟩
      · by_cases h3 : (sanitizeEnvVarName key).data.isEmpty = true
        · exact ⟨"Invalid vars key: " ++ key,
            by simp only [varsLoop]; rw [if_neg h1, if_neg h2, if_pos h3]⟩
        · have hg : goodVarsKey key = true := by
            rw [goodVarsKey]
            rw [Bool.not_eq_true] at h1 h2 h3
            rw [h1, h2, h3]
            rfl
          by_cases h4 : seen.contains ("MCP_VAR_" ++ sanitizeEnvVarName key) = true
          · exact ⟨"Vars key collision after normalization: " ++ key,
              by simp only [varsLoop]; rw [if_neg h1, if_neg h2, if_neg h3, if_pos h4]⟩
          · have hnotin : ("MCP_VAR_" ++ sanitizeEnvVarName key) ∉ seen := by
              intro hmem; exact h4 (List.elem_eq_true_of_mem hmem)
            have hnd2 : (seen ++ ["MCP_VAR_" ++ sanitizeEnvVarName key]).Nodup := by
              rw [List.nodup_append]
              refine ⟨hnd, List.nodup_singleton _, ?_⟩
              intro a ha hb
              simp at hb
              subst hb
              exact hnotin ha
            have hbad : (∃ p ∈ rest, goodVarsKey p.1 = false) ∨
                ¬ ((seen ++ ["MCP_VAR_" ++ sanitizeEnvVarName key]) ++
                  rest.map (fun p => envKeyOf p.1)).Nodup := by
              rcases h with ⟨q, hq, hqbad⟩ | h
              · rcases List.mem_cons.mp hq with hq1 | hq1
                · rw [hq1] at hqbad
                  rw [hqbad] at hg
                  exact absurd hg (by simp)
                · exact Or.inl ⟨q, hq1, hqbad⟩
              · refine Or.inr ?_
                rw [List.append_assoc]
                exact fun hc => h (by simpa [envKeyOf] using hc)
            obtain ⟨m, hm⟩ := ih (envMap ++ [("MCP_VAR_" ++ sanitizeEnvVarName key, value)])
              (seen ++ ["MCP_VAR_" ++ sanitizeEnvVarName key])
              (envVarArgs ++ ["--env-var", key ++ "=" ++ value]) hnd2 hbad
            exact ⟨m, by
              simp only [varsLoop]
              rw [if_neg h1, if_neg h2, if_neg h3, if_neg h4]
              exact hm⟩

theorem varsLoop_collision :
    ∀ (entries : List (String × String)) (envMap : List (String × String))
      (seen : List String) (envVarArgs : List String),
      (∀ p ∈ entries, goodVarsKey p.1 = true) →
      seen.Nodup →
      ¬ (seen ++ entries.map (fun p => envKeyOf p.1)).Nodup →
      ∃ key, varsLoop entries envMap seen envVarArgs =
        .error ⟨"E_VARS", "Vars key collision after normalization: " ++ key⟩ := by
  intro entries
  induction entries with
  | nil =>
    intro envMap seen envVarArgs _ hnd h
    exact absurd (by simpa using hnd) h
  | cons p rest ih =>
    intro envMap seen envVarArgs hgood hnd h
    obtain ⟨key, value⟩ := p
    have hg : goodVarsKey key = true := hgood (key, value) (List.mem_cons_self _ _)
    have h1 : ¬ key.data.isEmpty = true := by
      intro hx; rw [goodVarsKey, hx] at hg; simp at hg
    have h2 : ¬ key.data.contains '=' = true := by
      intro hx; rw [goodVarsKey, hx] at hg; simp at hg
    have h3 : ¬ (sanitizeEnvVarName key).data.isEmpty = true := by
      intro hx; rw [goodVarsKey, hx] at hg; simp at hg
    by_cases h4 : seen.contains ("MCP_VAR_" ++ sanitizeEnvVarName key) = true
    · exact ⟨key, by simp only [varsLoop]; rw [if_neg h1, if_neg h2, if_neg h3, if_pos h4]⟩
    · have hnotin : ("MCP_VAR_" ++ sanitizeEnvVarName key) ∉ seen := by
        intro hmem; exact h4 (List.elem_eq_true_of_mem hmem)
      have hnd2 : (seen ++ ["MCP_VAR_" ++ sanitizeEnvVarName key]).Nodup := by
        rw [List.nodup_append]
        refine ⟨hnd, List.nodup_singleton _, ?_⟩
        intro a ha hb
        simp at hb
        subst hb
        exact hnotin ha
      have hne : ¬ ((seen ++ ["MCP_VAR_" ++ sanitizeEnvVarName key]) ++
          rest.map (fun p => envKeyOf p.1)).Nodup := by
        rw [List.append_assoc]
        exact fun hc => h (by simpa [envKeyOf] using hc)
      obtain ⟨k, hk⟩ := ih (envMap ++ [("MCP_VAR_" ++ sanitizeEnvVarName key, value)])
        (seen ++ ["MCP_VAR_" ++ sanitizeEnvVarName key])
        (envVarArgs ++ ["--env-var", key ++ "=" ++ value])
        (fun q hq => hgood q (List.mem_cons_of_mem _ hq)) hnd2 hne
      exact ⟨k, by
        simp only [varsLoop]
        rw [if_neg h1, if_neg h2, if_neg h3, if_neg h4]
        exact hk⟩

/-- C9 (amended): each supplied vars key must be non-empty, must not contain
the equals sign, and must additionally sanitize to a non-empty stem.  When
every key satisfies all three checks and no two keys normalize to the same
prefixed environment name, the call succeeds, exposing every variable both as
a --env-var key=value runner argument and as a process-environment entry named
MCP_VAR_ plus the uppercased sanitized key, in entry order.  Any per-key
violation or normalization clash fails with an E_VARS error, and with all
keys individually good a clash fails specifically with the collision error. -/
theorem buildVarsPassThrough_spec (vars : List (String × String)) :
    ((∀ p ∈ vars, goodVarsKey p.1 = true) →
      (vars.map (fun p => envKeyOf p.1)).Nodup →
      buildVarsPassThrough (some vars) =
        .ok (vars.map (fun p => (envKeyOf p.1, p.2)),
          (vars.map (fun p => ["--env-var", p.1 ++ "=" ++ p.2])).flatten)) ∧
    (((∃ p ∈ vars, goodVarsKey p.1 = false) ∨
        ¬ (vars.map (fun p => envKeyOf p.1)).Nodup) →
      ∃ m, buildVarsPassThrough (some vars) = .error ⟨"E_VARS", m⟩) ∧
    ((∀ p ∈ vars, goodVarsKey p.1 = true) →
      ¬ (vars.map (fun p => envKeyOf p.1)).Nodup →
      ∃ key, buildVarsPassThrough (some vars) =
        .error ⟨"E_VARS", "Vars key collision after normalization: " ++ key⟩) := by
  refine ⟨?_, ?_, ?_⟩
  · intro hgood hnd
    have h := varsLoop_ok vars [] [] [] hgood (by simpa using hnd)
    simpa [buildVarsPassThrough] using h
  · intro h
    have hb := varsLoop_bad vars [] [] [] List.nodup_nil
      (by rcases h with h | h
          · exact Or.inl h
          · exact Or.inr (by simpa using h))
    simpa [buildVarsPassThrough] using hb
  · intro hgood hnd
    have hc := varsLoop_collision vars [] [] [] hgood List.nodup_nil (by simpa using hnd)
    simpa [buildVarsPassThrough] using hc

/-- C9 counterexample: the key of two hyphens is non-empty and contains no
equals sign, so by the claim it would be exposed both ways; the code instead
fails fatally because the key sanitizes to the empty stem. -/
theorem buildVarsPassThrough_rejects_sanitize_empty :
    buildVarsPassThrough (some [("--", "v")]) =
      .error ⟨"E_VARS", "Invalid vars key: --"⟩ ∧
    ("--" : String) ≠ "" ∧
    ("--" : String).data.contains '=' = false := by
  refine ⟨by decide, by decide, by decide⟩

/-- Witness for the C9 theorem at two good keys: the exact environment map
and runner arguments come out. -/
theorem buildVarsPassThrough_spec_witness :
    buildVarsPassThrough (some [("api-key", "k1"), ("user", "u2")]) =
      .ok ([("MCP_VAR_API_KEY", "k1"), ("MCP_VAR_USER", "u2")],
        ["--env-var", "api-key=k1", "--env-var", "user=u2"]) := by
  have h := (buildVarsPassThrough_spec [("api-key", "k1"), ("user", "u2")]).1
    (by decide) (by decide)
  exact h

/-! ## The request runner (runner.ts lines 331-422)

The effectful body of runBrunoTool is embedded as a pure function of the
target, the options, and a world record carrying the ambient nondeterminism
(temporary-directory name, UUID, spawn outcome, exit code, stderr text,
whether the timeout timer fired before the child closed, and what reading
the report file would yield).  Alongside the result the function returns the
ordered trace of observable side effects. -/

/-- One observable side effect of runBrunoTool, in order of occurrence. -/
inductive RunEffect where
  | mkdtemp : RunEffect
  | spawn (cmd : String) (args : List String) (cwd : PathSegs)
      (extraEnv : List (String × String)) : RunEffect
  | killSignal (sig : String) : RunEffect
  | scheduleKill (delayMs : Nat) (sig : String) : RunEffect
  | readReportFile (path : String) : RunEffect
deriving Repr, DecidableEq

/-- What reading and then JSON-parsing the report file would yield. -/
inductive ReportOutcome where
  | readFail (msg : String) : ReportOutcome
  | parseFail (msg : String) : ReportOutcome
  | parsed (report : Jx) : ReportOutcome

/-- The ambient nondeterminism of one runBrunoTool call. -/
structure RunWorld where
  tmpDir : String
  uuid : String
  spawnFails : Bool
  spawnErrMsg : String
  exitCode : Option Int
  stderrData : String
  timerFires : Bool
  reportOutcome : ReportOutcome

/-- The RunnerOptions record of runner.ts. -/
structure RunnerOptions where
  envName : Option String := none
  timeoutMs : Nat
  bodyLimitBytes : Nat
  vars : Option (List (String × String)) := none

/-- JS truthiness of the optional envName: undefined and the empty string
are falsy. -/
def envTruthy : Option String → Bool
  | none => false
  | some s => !s.data.isEmpty

/-- The last ten lines of the trimmed stderr text, joined back with
newlines, as in the E_BRU_EXIT message construction. -/
def stderrTail (stderr : String) : String :=
  let lines := (splitOnChar '\n' (trimStr stderr).data).map (fun l => (⟨l⟩ : String))
  String.intercalate "\n" (lines.drop (lines.length - 10))

/-- Interpolation of the close code: the literal null when the process was
terminated by a signal. -/
def exitCodeString : Option Int → String
  | none => "null"
  | some c => toString c

/-- The report path inside the fresh temporary directory. -/
def reportPathOf (w : RunWorld) : String := w.tmpDir ++ "/" ++ w.uuid ++ ".json"

/-- The bru CLI argument vector built by runBrunoTool. -/
def bruArgs (target : ToolTarget) (options : RunnerOptions) (envVarArgs : List String)
    (w : RunWorld) : List String :=
  ["run", target.requestPathNoExt ++ ".bru"] ++
    (match options.envName with
     | some e => if e.data.isEmpty then [] else ["--env", e]
     | none => []) ++
    envVarArgs ++ ["--output", reportPathOf w, "--format", "json"]

/-- runBrunoTool after the environment-precondition gate: temporary
directory, vars build, spawn, timeout and exit handling, report read, view
extraction, and output formatting. -/
def runBrunoToolCont (target : ToolTarget) (options : RunnerOptions) (w : RunWorld) :
    List RunEffect × Except AppError String :=
  match buildVarsPassThrough options.vars with
  | .error e => ([.mkdtemp], .error e)
  | .ok (envMap, envVarArgs) =>
    let spawnFx := RunEffect.spawn "bru" (bruArgs target options envVarArgs w)
      target.collectionRootAbs envMap
    if w.spawnFails then
      ([.mkdtemp, spawnFx],
        .error ⟨"E_RUNNER", "Failed to spawn Bruno CLI: " ++ w.spawnErrMsg⟩)
    else if w.timerFires then
      ([.mkdtemp, spawnFx, .killSignal "SIGTERM", .scheduleKill 1000 "SIGKILL"],
        .error ⟨"E_TIMEOUT", "Bruno request timed out after " ++
          toString options.timeoutMs ++ "ms."⟩)
    else if w.exitCode ≠ some 0 then
      ([.mkdtemp, spawnFx],
        .error ⟨"E_BRU_EXIT", "Bruno CLI exited with code " ++
          exitCodeString w.exitCode ++ ". " ++
          (if stderrTail w.stderrData = "" then "No stderr output."
           else stderrTail w.stderrData)⟩)
    else
      match w.reportOutcome with
      | .readFail m => ([.mkdtemp, spawnFx, .readReportFile (reportPathOf w)],
          .error ⟨"E_REPORT",
            "Bruno JSON report not found at " ++ reportPathOf w ++ ": " ++ m⟩)
      | .parseFail m => ([.mkdtemp, spawnFx, .readReportFile (reportPathOf w)],
          .error ⟨"E_REPORT", "Bruno JSON report is invalid: " ++ m⟩)
      | .parsed report =>
        match extractReportView report with
        | .error e => ([.mkdtemp, spawnFx, .readReportFile (reportPathOf w)], .error e)
        | .ok view => ([.mkdtemp, spawnFx, .readReportFile (reportPathOf w)],
            .ok (formatToolOutput view options.bodyLimitBytes))

/-- The template variables of the target not covered by the supplied vars
keys. -/
def missingVarsOf (target : ToolTarget) (options : RunnerOptions) : List String :=
  target.templateVars.filter
    (fun name => !((options.vars.getD []).map Prod.fst).contains name)

/-- runBrunoTool from runner.ts: the environment-required precondition is
checked before any side effect; only afterwards does the runner allocate the
temporary directory and spawn the CLI. -/
def runBrunoTool (target : ToolTarget) (options : RunnerOptions) (w : RunWorld) :
    List RunEffect × Except AppError String :=
  if target.requiresEnv && !envTruthy options.envName then
    if (missingVarsOf target options).isEmpty then runBrunoToolCont target options w
    else
      ([], .error ⟨"E_ENV_REQUIRED",
        "Request " ++ target.toolName ++ " references template variables (" ++
          String.intercalate ", " (missingVarsOf target options) ++
          "). Provide --env <name> or pass all missing values via vars."⟩)
  else runBrunoToolCont target options w

/-- C2: for a target with requiresEnv true, when no (or an empty) environment
name is supplied and at least one referenced template variable is absent from
the supplied vars keys, runBrunoTool performs no side effect at all and fails
with the E_ENV_REQUIRED error whose message lists exactly the missing
variables in order. -/
theorem runBrunoTool_env_required (target : ToolTarget) (options : RunnerOptions)
    (w : RunWorld)
    (hreq : target.requiresEnv = true)
    (henv : envTruthy options.envName = false)
    (hmiss : ∃ name ∈ target.templateVars,
      ((options.vars.getD []).map Prod.fst).contains name = false) :
    runBrunoTool target options w =
      ([], .error ⟨"E_ENV_REQUIRED",
        "Request " ++ target.toolName ++ " references template variables (" ++
          String.intercalate ", " (missingVarsOf target options) ++
          "). Provide --env <name> or pass all missing values via vars."⟩) := by
  have hc : (target.requiresEnv && !envTruthy options.envName) = true := by
    rw [hreq, henv]; rfl
  have hne : missingVarsOf target options ≠ [] := by
    obtain ⟨name, hn, hcf⟩ := hmiss
    intro hempty
    have hin : name ∈ missingVarsOf target options :=
      List.mem_filter.mpr ⟨hn, by rw [hcf]; rfl⟩
    rw [hempty] at hin
    exact absurd hin (List.not_mem_nil name)
  have hie : (missingVarsOf target options).isEmpty = false := by
    cases hfl : missingVarsOf target options with
    | nil => exact absurd hfl hne
    | cons a t => rfl
  unfold runBrunoTool
  rw [if_pos hc, if_neg (by rw [hie]; exact Bool.false_ne_true)]

/-- Witness for C2: a concrete target requiring an environment, called with
no environment and no vars, fails up front with the message naming the
missing variable, and the effect trace is empty. -/
theorem runBrunoTool_env_required_witness :
    runBrunoTool
      ⟨"pets_list", ["root", "list.bru"], ["root"], "list", true, ["apiKey"], none⟩
      ⟨none, 30000, 65536, none⟩
      ⟨"/tmp/bruno-mcp-x", "u1", false, "", some 0, "", false, .parsed (Jx.obj [])⟩ =
      ([], .error ⟨"E_ENV_REQUIRED",
        "Request pets_list references template variables (apiKey). Provide --env <name> or pass all missing values via vars."⟩) := by
  have h := runBrunoTool_env_required
    ⟨"pets_list", ["root", "list.bru"], ["root"], "list", true, ["apiKey"], none⟩
    ⟨none, 30000, 65536, none⟩
    ⟨"/tmp/bruno-mcp-x", "u1", false, "", some 0, "", false, .parsed (Jx.obj [])⟩
    rfl rfl ⟨"apiKey", by decide, by decide⟩
  exact h

/-- C6: whenever the environment gate passes, the vars build succeeds, the
spawn succeeds, and the timeout timer fires before the child closes, the
call fails with the E_TIMEOUT error naming the configured timeout —
regardless of the exit code and of any report the subprocess may have
produced — and the trace records the immediate SIGTERM followed by the
SIGKILL scheduled after the fixed 1000 ms grace window, with no report read
at all. -/
theorem runBrunoTool_timeout (target : ToolTarget) (options : RunnerOptions)
    (w : RunWorld) (envMap : List (String × String)) (envVarArgs : List String)
    (hpre : (target.requiresEnv && !envTruthy options.envName) = false ∨
      (missingVarsOf target options).isEmpty = true)
    (hvars : buildVarsPassThrough options.vars = .ok (envMap, envVarArgs))
    (hspawn : w.spawnFails = false)
    (htimer : w.timerFires = true) :
    runBrunoTool target options w =
      ([.mkdtemp,
        .spawn "bru" (bruArgs target options envVarArgs w) target.collectionRootAbs envMap,
        .killSignal "SIGTERM", .scheduleKill 1000 "SIGKILL"],
       .error ⟨"E_TIMEOUT",
         "Bruno request timed out after " ++ toString options.timeoutMs ++ "ms."⟩) ∧
    ∀ pth, RunEffect.readReportFile pth ∉ (runBrunoTool target options w).1 := by
  have hrun : runBrunoTool target options w = runBrunoToolCont target options w := by
    unfold runBrunoTool
    rcases hpre with h | h
    · rw [if_neg (by rw [h]; exact Bool.false_ne_true)]
    · by_cases hcnd : (target.requiresEnv && !envTruthy options.envName) = true
      · rw [if_pos hcnd, if_pos h]
      · rw [if_neg hcnd]
  have hcont : runBrunoToolCont target options w =
      ([.mkdtemp,
        .spawn "bru" (bruArgs target options envVarArgs w) target.collectionRootAbs envMap,
        .killSignal "SIGTERM", .scheduleKill 1000 "SIGKILL"],
       .error ⟨"E_TIMEOUT",
         "Bruno request timed out after " ++ toString options.timeoutMs ++ "ms."⟩) := by
    unfold runBrunoToolCont
    rw [hvars]
    dsimp only
    rw [if_neg (by rw [hspawn]; exact Bool.false_ne_true), if_pos htimer]
  have hmain := hrun.trans hcont
  refine ⟨hmain, ?_⟩
  intro pth hmem
  rw [hmain] at hmem
  simp at hmem

/-- Witness for C6: a concrete timed-out call — the child was killed by the
timer (the close code is null) and the report file would not even parse —
still yields exactly the timeout error, with the SIGTERM and delayed SIGKILL
in the trace and no report read. -/
theorem runBrunoTool_timeout_witness :
    runBrunoTool
      ⟨"t", ["root", "t.bru"], ["root"], "t", false, [], none⟩
      ⟨none, 30000, 65536, none⟩
      ⟨"/tmp/bruno-mcp-y", "u2", false, "", none, "", true, .readFail "gone"⟩ =
      ([.mkdtemp,
        .spawn "bru" ["run", "t.bru", "--output", "/tmp/bruno-mcp-y/u2.json",
          "--format", "json"] ["root"] [],
        .killSignal "SIGTERM", .scheduleKill 1000 "SIGKILL"],
       .error ⟨"E_TIMEOUT", "Bruno request timed out after 30000ms."⟩) :=
  (runBrunoTool_timeout
    ⟨"t", ["root", "t.bru"], ["root"], "t", false, [], none⟩
    ⟨none, 30000, 65536, none⟩
    ⟨"/tmp/bruno-mcp-y", "u2", false, "", none, "", true, .readFail "gone"⟩
    [] [] (Or.inl rfl) rfl rfl rfl).1

/-! ## The MCP server view (mcp.ts lines 82-90) -/

/-- One entry of the list-tools response. -/
structure ToolListEntry where
  name : String
  description : String
deriving Repr, DecidableEq

/-- The list-tools handler of mcp.ts: every registered target is enumerated
with its identifier and a description interpolated from its logical path;
the docs field of the target is not consulted. -/
def listToolsModel (tools : List (String × ToolTarget)) : List ToolListEntry :=
  tools.map (fun p =>
    ⟨p.2.toolName, "Execute Bruno request: " ++ p.2.requestPathNoExt⟩)

/-- C4: the enumeration ignores the extracted documentation.  A collection
whose only file carries a docs block registers a target with the
documentation present, yet list-tools returns the generated default
description rather than the documentation text; and in general the
description of an entry is unchanged when its docs field is replaced by
anything else. -/
theorem listTools_ignores_docs :
    (∃ tgt,
      buildCollectionToolMap [["root", "auth", "login.bru"]] ["root"] "billing"
        (fun _ => "docs \x7b\n  Login docs\n\x7d\nmeta \x7b\n  name: Login\n\x7d\n") =
        .ok [("billing_auth_login", tgt)] ∧
      tgt.docs = some "Login docs" ∧
      listToolsModel [("billing_auth_login", tgt)] =
        [⟨"billing_auth_login", "Execute Bruno request: auth/login"⟩] ∧
      ("Execute Bruno request: auth/login" : String) ≠ "Login docs") ∧
    (∀ key tgt d, listToolsModel [(key, tgt)] =
      listToolsModel [(key, { tgt with docs := d })]) := by
  constructor
  · refine ⟨{ toolName := "billing_auth_login"
              bruFileAbs := ["root", "auth", "login.bru"]
              collectionRootAbs := ["root"]
              requestPathNoExt := "auth/login"
              requiresEnv := false
              templateVars := []
              docs := some "Login docs" }, ?_, ?_, ?_, ?_⟩
    · decide
    · decide
    · decide
    · decide
  · intro key tgt d
    rfl

end BrunoMcp
